import Mathlib

/-!
A shallow embedding of the portfolio ledger and lifecycle engine of
`portfoliovisuals.py` (the core specified in spec.md), together with theorems
settling the claims C1..C10.

Modelling conventions, fixed once for the whole file:

* Money and share quantities are Python floats in the source; they are modelled
  as exact rationals (`ℚ`).
* A calendar date (the source stores `YYYY-MM-DD` strings and compares parsed
  `date` values) is modelled as a `Nat` day number; a stored date string that
  may fail `datetime.strptime` is modelled as `Option Nat`, `none` standing for
  an unparsable string.  A wall-clock instant (`datetime.now()`) is a `Nat`
  counting minutes, so that the day of an instant `now` is `now / 1440` and the
  15:00 cutoff of day `d` is `d * 1440 + 900`.
* The Python dicts `portfolio`, `covered_calls`, `dividends` are association
  lists in insertion order, exactly mirroring dict semantics: looking up a key
  finds its (unique) entry, assignment to an existing key replaces that entry
  in place, assignment to a new key appends, `del` removes the entry.
* Covered-call and dividend ids are the strings `call_<n>` / `div_<n>` in the
  source, generated from the current dict length; since the two dicts are
  disjoint and the map `n ↦ "div_" ++ toString n` is injective, the id is
  modelled by its numeric suffix `n : Nat`.
* The market-data provider (yfinance) is a record of pure functions; a price
  fetch failure is the sentinel `0`, exactly as `get_current_stock_price`
  returns `0.0` on any exception.
* Each UI operation is modelled as a function on the ledger state returning
  `Except OpError PState`; `.error e` corresponds to the source showing an
  error box and returning before any mutation, so a rejected operation leaves
  the state unchanged by construction.
-/

namespace PortfolioVisuals

/-- Association list standing for a Python dict (keys unique in practice;
lookup and replacement act on the first occurrence, matching dict behaviour). -/
abbrev Dict (κ α : Type) := List (κ × α)

/-- Dict lookup: the value at the first occurrence of the key. -/
def lookupD {κ α : Type} [DecidableEq κ] : Dict κ α → κ → Option α
  | [], _ => none
  | p :: rest, k => if p.1 = k then some p.2 else lookupD rest k

/-- Dict assignment `m[k] = v`: replaces the first entry with key `k` in
place, or appends a new entry when the key is absent. -/
def insertD {κ α : Type} [DecidableEq κ] : Dict κ α → κ → α → Dict κ α
  | [], k, v => [(k, v)]
  | p :: rest, k, v => if p.1 = k then (k, v) :: rest else p :: insertD rest k v

/-- Dict deletion `del m[k]`. -/
def eraseD {κ α : Type} [DecidableEq κ] : Dict κ α → κ → Dict κ α
  | [], _ => []
  | p :: rest, k => if p.1 = k then eraseD rest k else p :: eraseD rest k

/-- A stock position: entry of the `portfolio` dict of the source
(`shares`, `purchase_price`, `purchase_date` fields). -/
structure Position where
  shares : ℚ
  purchase_price : ℚ
  purchase_date : Option Nat
deriving DecidableEq

/-- A covered call contract: entry of the `covered_calls` dict of the source. -/
structure CoveredCall where
  ticker : String
  exp_date : Option Nat
  days_to_exp : Int
  strike_price : ℚ
  premium : ℚ
  date_sold : Nat
deriving DecidableEq

/-- A dividend receivable: entry of the `dividends` dict of the source.
The status is the literal string stored by the source
("pending", "paid" or "ineligible"). -/
structure Dividend where
  ticker : String
  ex_div_date : Option Nat
  payment_date : Option Nat
  dividend_per_share : ℚ
  status : String
deriving DecidableEq

/-- The whole mutable ledger state of the source: the module-level globals
`portfolio` (here `stocks`, renamed), `covered_calls`, `dividends` and
`cash_balance`. -/
structure PState where
  stocks : Dict String Position
  covered_calls : Dict Nat CoveredCall
  dividends : Dict Nat Dividend
  cash_balance : ℚ
deriving DecidableEq

/-- The market-data provider interface (yfinance), as pure functions.
`price` models `get_current_stock_price` (already folding its exception
handler: failures are the sentinel 0).  `exDivDate`/`divRate` model
`stock.info.get("exDividendDate")` / `.get("dividendRate")`.  `history`
models `stock.dividends` as a list of (payment day, amount per share). -/
structure Market where
  price : String → ℚ
  exDivDate : String → Option Nat
  divRate : String → Option ℚ
  history : String → List (Nat × ℚ)

/-- Number of contract entries on a given ticker. -/
def encCount : Dict Nat CoveredCall → String → Nat
  | [], _ => 0
  | p :: rest, t => (if p.2.ticker = t then 1 else 0) + encCount rest t

/-- Source `get_shares_in_contracts()[t]` (0 when absent): each contract on
the ticker contributes exactly 100 shares. -/
def get_shares_in_contracts (s : PState) (t : String) : Nat :=
  100 * encCount s.covered_calls t

/-- Total shares held on a ticker in a position dict, 0 when absent. -/
def stockTotal (stocks : Dict String Position) (t : String) : ℚ :=
  match lookupD stocks t with
  | none => 0
  | some pos => pos.shares

/-- Total shares held on a ticker, 0 when the ticker has no position. -/
def totalShares (s : PState) (t : String) : ℚ :=
  stockTotal s.stocks t

/-- Source `get_available_shares(ticker)`. -/
def get_available_shares (s : PState) (t : String) : ℚ :=
  match lookupD s.stocks t with
  | none => 0
  | some pos => max 0 (pos.shares - (get_shares_in_contracts s t : ℚ))

/-- Typed failures of the mutating operations (each corresponds to one
`messagebox.showerror` early return of the source). -/
inductive OpError
  | validation
  | insufficientCash
  | invalidDate
  | unknownTicker
  | insufficientAvailable
  | priceUnavailable
  | insufficientShares
  | noSelection
deriving DecidableEq

/-- Source `add_stock_to_portfolio` (buy): validates inputs, checks cash,
validates the date, debits cash, then averages into an existing position
(leaving its purchase date untouched) or creates a new one. -/
def add_stock (s : PState) (ticker : String) (shares price : ℚ)
    (purchase_date : Option Nat) : Except OpError PState :=
  if ticker = "" ∨ shares ≤ 0 ∨ price ≤ 0 then .error .validation
  else
    if shares * price > s.cash_balance then .error .insufficientCash
    else
      match purchase_date with
      | none => .error .invalidDate
      | some d =>
        let s1 : PState := { s with cash_balance := s.cash_balance - shares * price }
        match lookupD s1.stocks ticker with
        | some pos =>
          let total_shares := pos.shares + shares
          let avg_price := (pos.purchase_price * pos.shares + price * shares) / total_shares
          let pos1 : Position := { pos with shares := total_shares, purchase_price := avg_price }
          .ok { s1 with stocks := insertD s1.stocks ticker pos1 }
        | none =>
          .ok { s1 with stocks := insertD s1.stocks ticker (⟨shares, price, some d⟩ : Position) }

/-- Source `remove_stock_from_portfolio` (sell): note that the source never
checks that the quantity is positive. -/
def remove_stock (s : PState) (mkt : Market) (ticker : String)
    (shares_to_remove : ℚ) : Except OpError PState :=
  match lookupD s.stocks ticker with
  | none => .error .unknownTicker
  | some pos =>
    if shares_to_remove > get_available_shares s ticker then .error .insufficientAvailable
    else
      if mkt.price ticker = 0 then .error .priceUnavailable
      else
        let s1 : PState :=
          { s with cash_balance := s.cash_balance + shares_to_remove * mkt.price ticker }
        if shares_to_remove ≥ pos.shares then
          .ok { s1 with stocks := eraseD s1.stocks ticker }
        else
          let pos1 : Position := { pos with shares := pos.shares - shares_to_remove }
          .ok { s1 with stocks := insertD s1.stocks ticker pos1 }

/-- Source `add_covered_call`: validates inputs, requires 100 available
shares, validates the expiration date, credits the premium, then stores the
contract under the generated id `call_<len>`. -/
def add_covered_call (s : PState) (ticker : String) (exp_date : Option Nat)
    (strike premium : ℚ) (now : Nat) : Except OpError PState :=
  if ticker = "" ∨ strike ≤ 0 ∨ premium ≤ 0 then .error .validation
  else
    if get_available_shares s ticker < 100 then .error .insufficientAvailable
    else
      match exp_date with
      | none => .error .invalidDate
      | some e =>
        let days_to_exp : Int := Int.fdiv ((e : Int) * 1440 - (now : Int)) 1440
        let s1 : PState := { s with cash_balance := s.cash_balance + premium * 100 }
        let call : CoveredCall := ⟨ticker, some e, days_to_exp, strike, premium, now / 1440⟩
        .ok { s1 with covered_calls := insertD s1.covered_calls s1.covered_calls.length call }

/-- Source `manual_call_away` (manual exercise of a selected contract):
requires 100 shares on the ticker, debits them (deleting the position at
zero), credits `strike * 100` and removes the contract. -/
def manual_call_away (s : PState) (call_id : Nat) : Except OpError PState :=
  match lookupD s.covered_calls call_id with
  | none => .error .noSelection
  | some call =>
    match lookupD s.stocks call.ticker with
    | none => .error .insufficientShares
    | some pos =>
      if pos.shares < 100 then .error .insufficientShares
      else
        let newStocks :=
          if pos.shares - 100 ≤ 0 then eraseD s.stocks call.ticker
          else insertD s.stocks call.ticker { pos with shares := pos.shares - 100 }
        .ok { s with stocks := newStocks,
                     cash_balance := s.cash_balance + call.strike_price * 100,
                     covered_calls := eraseD s.covered_calls call_id }

/-- Source `remove_covered_call`: unconditional deletion of a selected entry. -/
def remove_covered_call (s : PState) (call_id : Nat) : PState :=
  { s with covered_calls := eraseD s.covered_calls call_id }

/-- Source `add_dividend`: validates inputs and both dates, requires the
payment date strictly after the ex-dividend date, then stores the entry as
"pending" under the generated id `div_<len>`. -/
def add_dividend (s : PState) (ticker : String) (ex_div_date payment_date : Option Nat)
    (per_share : ℚ) : Except OpError PState :=
  if ticker = "" ∨ per_share ≤ 0 then .error .validation
  else
    match ex_div_date, payment_date with
    | some e, some p =>
      if p ≤ e then .error .invalidDate
      else
        let d : Dividend := ⟨ticker, some e, some p, per_share, "pending"⟩
        .ok { s with dividends := insertD s.dividends s.dividends.length d }
    | _, _ => .error .invalidDate

/-- Source `remove_dividend`: unconditional deletion of a selected entry. -/
def remove_dividend (s : PState) (div_id : Nat) : PState :=
  { s with dividends := eraseD s.dividends div_id }

/-- Source `add_cash`. -/
def add_cash (s : PState) (amount : ℚ) : Except OpError PState :=
  if amount ≤ 0 then .error .validation
  else .ok { s with cash_balance := s.cash_balance + amount }

/-- Source `remove_cash` (withdraw). -/
def remove_cash (s : PState) (amount : ℚ) : Except OpError PState :=
  if amount ≤ 0 then .error .validation
  else
    if amount > s.cash_balance then .error .insufficientCash
    else .ok { s with cash_balance := s.cash_balance - amount }

/-- One human-readable notice line of the startup sweep, abstracting the
formatted strings appended to `expired_calls` / `dividend_payments` /
`new_dividends_found` / `historical_payments` in the source. -/
inductive Note
  | exercised (ticker : String) (strike : ℚ)
  | exerciseShortfall (ticker : String)
  | expiredWorthless (ticker : String)
  | invalidOptionRemoved (ticker : String)
  | dividendPaid (ticker : String) (amount : ℚ)
  | ineligibleAfterExDate (ticker : String)
  | ineligibleNoShares (ticker : String)
  | invalidDividendRemoved (ticker : String)
  | newDividendFound (ticker : String) (amount : ℚ) (exDay : Nat)
  | historicalCredited (ticker : String) (amount : ℚ)
deriving DecidableEq

/-- One iteration of the loop body of `check_expired_options` for the
snapshot entry `(call_id, call)`, threading the evolving state and notice
list.  An unparsable expiration date removes the contract; a contract past
the 15:00 cutoff of its expiration day is exercised (price at least
strike + 0.01 and 100 shares held: debit 100 shares deleting the position at
zero, credit strike * 100), removed with an inconsistency note (in the money
but fewer than 100 shares held), or expires worthless; contracts not yet due
are untouched. -/
def processCall (mkt : Market) (now : Nat) (acc : PState × List Note)
    (entry : Nat × CoveredCall) : PState × List Note :=
  let st := acc.1
  let notes := acc.2
  let call := entry.2
  match call.exp_date with
  | none =>
    ({ st with covered_calls := eraseD st.covered_calls entry.1 },
     notes ++ [Note.invalidOptionRemoved call.ticker])
  | some e =>
    if now ≥ e * 1440 + 900 then
      if mkt.price call.ticker ≥ call.strike_price + 1 / 100 then
        match lookupD st.stocks call.ticker with
        | some pos =>
          if pos.shares ≥ 100 then
            let pos1 : Position := { pos with shares := pos.shares - 100 }
            let newStocks :=
              if pos1.shares ≤ 0 then eraseD st.stocks call.ticker
              else insertD st.stocks call.ticker pos1
            ({ st with stocks := newStocks,
                       cash_balance := st.cash_balance + call.strike_price * 100,
                       covered_calls := eraseD st.covered_calls entry.1 },
             notes ++ [Note.exercised call.ticker call.strike_price])
          else
            ({ st with covered_calls := eraseD st.covered_calls entry.1 },
             notes ++ [Note.exerciseShortfall call.ticker])
        | none =>
          ({ st with covered_calls := eraseD st.covered_calls entry.1 },
           notes ++ [Note.exerciseShortfall call.ticker])
      else
        ({ st with covered_calls := eraseD st.covered_calls entry.1 },
         notes ++ [Note.expiredWorthless call.ticker])
    else acc

/-- Source `check_expired_options`: one pass over a snapshot of the
covered-call entries. -/
def check_expired_options (mkt : Market) (now : Nat) (s : PState) :
    PState × List Note :=
  s.covered_calls.foldl (processCall mkt now) (s, [])

/-- One iteration of the loop body of `check_dividend_payments` for the
snapshot entry `(div_id, d)`.  Unparsable ex or payment dates delete the
entry (the `ValueError` handler); a pending dividend whose payment day has
arrived is paid (ticker held, purchase day strictly before the ex day:
credit shares * perShare, mark "paid") or marked "ineligible"; a held
position whose stored purchase date is unparsable also triggers the
`ValueError` handler, deleting the dividend. -/
def processDividend (now : Nat) (acc : PState × List Note)
    (entry : Nat × Dividend) : PState × List Note :=
  let st := acc.1
  let notes := acc.2
  let d := entry.2
  match d.ex_div_date, d.payment_date with
  | some ex, some pay =>
    if now / 1440 ≥ pay ∧ d.status = "pending" then
      match lookupD st.stocks d.ticker with
      | some pos =>
        match pos.purchase_date with
        | some pd =>
          if pd < ex then
            let total := pos.shares * d.dividend_per_share
            let d1 : Dividend := { d with status := "paid" }
            ({ st with cash_balance := st.cash_balance + total,
                       dividends := insertD st.dividends entry.1 d1 },
             notes ++ [Note.dividendPaid d.ticker total])
          else
            let d1 : Dividend := { d with status := "ineligible" }
            ({ st with dividends := insertD st.dividends entry.1 d1 },
             notes ++ [Note.ineligibleAfterExDate d.ticker])
        | none =>
          ({ st with dividends := eraseD st.dividends entry.1 },
           notes ++ [Note.invalidDividendRemoved d.ticker])
      | none =>
        let d1 : Dividend := { d with status := "ineligible" }
        ({ st with dividends := insertD st.dividends entry.1 d1 },
         notes ++ [Note.ineligibleNoShares d.ticker])
    else acc
  | _, _ =>
    ({ st with dividends := eraseD st.dividends entry.1 },
     notes ++ [Note.invalidDividendRemoved d.ticker])

/-- Source `check_dividend_payments`: one pass over a snapshot of the
dividend entries. -/
def check_dividend_payments (now : Nat) (s : PState) : PState × List Note :=
  s.dividends.foldl (processDividend now) (s, [])

/-- The dedup scan of `fetch_upcoming_dividends`: an upcoming dividend on
`ticker` with ex day `e` is already tracked when some entry has the same
ticker and the same stored ex-dividend date string. -/
def upcomingTracked (divs : Dict Nat Dividend) (ticker : String) (e : Nat) : Prop :=
  ∃ p ∈ divs, p.2.ticker = ticker ∧ p.2.ex_div_date = some e

instance (divs : Dict Nat Dividend) (ticker : String) (e : Nat) :
    Decidable (upcomingTracked divs ticker e) := by
  unfold upcomingTracked
  exact List.decidableBEx _ divs

/-- One iteration of the loop body of `fetch_upcoming_dividends` for one
held ticker: when the provider has both an ex-dividend date and a non-zero
annual rate (a rate of 0.0 is falsy in the source guard), derive the
quarterly amount `rate / 4` and estimated payment day `ex + 21`, and insert
a new "pending" entry under the generated id unless already tracked and
only when the ex day is today or later. -/
def processUpcoming (mkt : Market) (now : Nat) (acc : PState × List Note)
    (ticker : String) : PState × List Note :=
  let st := acc.1
  let notes := acc.2
  match mkt.exDivDate ticker, mkt.divRate ticker with
  | some e, some rate =>
    if rate = 0 then acc
    else
      if ¬ upcomingTracked st.dividends ticker e ∧ e ≥ now / 1440 then
        let d : Dividend := ⟨ticker, some e, some (e + 21), rate / 4, "pending"⟩
        ({ st with dividends := insertD st.dividends st.dividends.length d },
         notes ++ [Note.newDividendFound ticker (rate / 4) e])
      else acc
  | _, _ => acc

/-- Source `fetch_upcoming_dividends`: one pass over the held tickers. -/
def fetch_upcoming_dividends (mkt : Market) (now : Nat) (s : PState) :
    PState × List Note :=
  (s.stocks.map Prod.fst).foldl (processUpcoming mkt now) (s, [])

/-- Result of the dedup scan of `check_historical_dividends` for one
historical payment: `tracked` when a same-ticker entry within 5 days is
found, `parseFail` when a same-ticker entry with an unparsable stored
ex-dividend date is reached first (the `strptime` call raises, aborting the
whole ticker), `untracked` otherwise. -/
inductive ScanOutcome
  | tracked
  | untracked
  | parseFail
deriving DecidableEq

/-- The dedup scan of `check_historical_dividends`: first same-ticker entry
decides (its stored ex day within 5 days of the payment day, or a parse
failure); entries of other tickers are skipped without parsing. -/
def histScan : Dict Nat Dividend → String → Nat → ScanOutcome
  | [], _, _ => .untracked
  | p :: rest, ticker, d =>
    if p.2.ticker = ticker then
      match p.2.ex_div_date with
      | none => .parseFail
      | some e =>
        if ((e : Int) - (d : Int)).natAbs ≤ 5 then .tracked
        else histScan rest ticker d
    else histScan rest ticker d

/-- The inner loop of `check_historical_dividends` over the (already
filtered) payment history of one held ticker.  Any raised exception — a
missing position, an unparsable stored purchase date, or a parse failure in
the dedup scan — is caught by the per-ticker handler, which keeps all
effects so far and moves on to the next ticker: modelled by returning the
accumulator unchanged for the rest of the list.  A qualifying untracked
payment (purchased strictly before the payment day, payment day not in the
future) is credited immediately and inserted as "paid" with ex day
estimated as payment day minus 3. -/
def processHistPayments (now : Nat) (ticker : String) :
    List (Nat × ℚ) → PState × List Note → PState × List Note
  | [], acc => acc
  | (d, amt) :: rest, acc =>
    let st := acc.1
    let notes := acc.2
    match lookupD st.stocks ticker with
    | none => acc
    | some pos =>
      match pos.purchase_date with
      | none => acc
      | some pd =>
        if pd < d ∧ d ≤ now / 1440 then
          match histScan st.dividends ticker d with
          | .parseFail => acc
          | .tracked => processHistPayments now ticker rest acc
          | .untracked =>
            let total := pos.shares * amt
            let d1 : Dividend := ⟨ticker, some (d - 3), some d, amt, "paid"⟩
            processHistPayments now ticker rest
              ({ st with cash_balance := st.cash_balance + total,
                         dividends := insertD st.dividends st.dividends.length d1 },
               notes ++ [Note.historicalCredited ticker total])
        else processHistPayments now ticker rest acc

/-- Source `check_historical_dividends`: for each held ticker, process the
provider history restricted to the last 180 days. -/
def check_historical_dividends (mkt : Market) (now : Nat) (s : PState) :
    PState × List Note :=
  (s.stocks.map Prod.fst).foldl
    (fun acc ticker =>
      processHistPayments now ticker
        ((mkt.history ticker).filter (fun p => now / 1440 - 180 ≤ p.1)) acc)
    (s, [])

/-- The startup reconciliation calls of the source (lines 1357-1361), in
their order of appearance: option expiry, historical backfill, upcoming
discovery, then the pending/due payment sweep.  The combined notice list
concatenates the four per-procedure reports. -/
def startup_sweep (mkt : Market) (now : Nat) (s : PState) : PState × List Note :=
  let r1 := check_expired_options mkt now s
  let r2 := check_historical_dividends mkt now r1.1
  let r3 := fetch_upcoming_dividends mkt now r2.1
  let r4 := check_dividend_payments now r3.1
  (r4.1, r1.2 ++ r2.2 ++ r3.2 ++ r4.2)

/-- Per-ticker record built by the loop of `calculate_portfolio_value`. -/
structure TickerBreakdown where
  shares : ℚ
  available_shares : ℚ
  contracted_shares : ℚ
  purchase_price : ℚ
  current_price : ℚ
  current_value : ℚ
  available_value : ℚ
  contracted_value : ℚ
  gain_loss : ℚ
  gain_loss_percent : ℚ
  purchase_date : Option Nat
deriving DecidableEq

/-- Result tuple of `calculate_portfolio_value`. -/
structure Valuation where
  total_value : ℚ
  stock_value : ℚ
  cash_value : ℚ
  options_value : ℚ
  breakdown : Dict String TickerBreakdown
deriving DecidableEq

/-- The per-ticker body of the valuation loop of the source. -/
def tickerBreakdown (mkt : Market) (s : PState) (t : String) (pos : Position) :
    TickerBreakdown :=
  let current_price := mkt.price t
  let current_value := pos.shares * current_price
  let gain_loss := current_value - pos.shares * pos.purchase_price
  let glp := if pos.purchase_price > 0
    then gain_loss / (pos.shares * pos.purchase_price) * 100 else 0
  let avail := get_available_shares s t
  let contracted := (get_shares_in_contracts s t : ℚ)
  ⟨pos.shares, avail, contracted, pos.purchase_price, current_price, current_value,
   avail * current_price, contracted * current_price, gain_loss, glp,
   pos.purchase_date⟩

/-- Source `calculate_portfolio_value` (renamed since the source name would
clash with the token rules of this development): accumulates
`stock_value += shares * price` and the per-ticker breakdown over the held
positions, sums `premium * 100` over the open contracts, and returns
`total_value = stock_value + cash_balance`. -/
def calculate_value (mkt : Market) (s : PState) : Valuation :=
  let stepStock := fun (acc : ℚ × Dict String TickerBreakdown) (p : String × Position) =>
    (acc.1 + p.2.shares * mkt.price p.1, acc.2 ++ [(p.1, tickerBreakdown mkt s p.1 p.2)])
  let r := s.stocks.foldl stepStock ((0 : ℚ), ([] : Dict String TickerBreakdown))
  let options_value := s.covered_calls.foldl (fun acc p => acc + p.2.premium * 100) (0 : ℚ)
  ⟨r.1 + s.cash_balance, r.1, s.cash_balance, options_value, r.2⟩

/-- Keys of a dict, in order. -/
def keysD {κ α : Type} (m : Dict κ α) : List κ := m.map Prod.fst

/-- The reachable ledger states: every state obtainable from the empty
initial state (empty collections, zero cash — the state the source starts
from when no data files exist) by any sequence of successful mutating
operations and sweep runs, with arbitrary market data and clock on each
step. -/
inductive Reachable : PState → Prop
  | init : Reachable ⟨[], [], [], 0⟩
  | buy (s s2 : PState) (t : String) (sh pr : ℚ) (pd : Option Nat)
      (hr : Reachable s) (h : add_stock s t sh pr pd = .ok s2) : Reachable s2
  | sell (s s2 : PState) (mkt : Market) (t : String) (q : ℚ)
      (hr : Reachable s) (h : remove_stock s mkt t q = .ok s2) : Reachable s2
  | openCall (s s2 : PState) (t : String) (e : Option Nat) (strike prem : ℚ) (now : Nat)
      (hr : Reachable s) (h : add_covered_call s t e strike prem now = .ok s2) :
      Reachable s2
  | closeCall (s : PState) (cid : Nat) (hr : Reachable s) :
      Reachable (remove_covered_call s cid)
  | exercise (s s2 : PState) (cid : Nat)
      (hr : Reachable s) (h : manual_call_away s cid = .ok s2) : Reachable s2
  | cashIn (s s2 : PState) (a : ℚ) (hr : Reachable s) (h : add_cash s a = .ok s2) :
      Reachable s2
  | cashOut (s s2 : PState) (a : ℚ) (hr : Reachable s) (h : remove_cash s a = .ok s2) :
      Reachable s2
  | divAdd (s s2 : PState) (t : String) (e p : Option Nat) (q : ℚ)
      (hr : Reachable s) (h : add_dividend s t e p q = .ok s2) : Reachable s2
  | divRemove (s : PState) (did : Nat) (hr : Reachable s) :
      Reachable (remove_dividend s did)
  | sweepExpiry (s : PState) (mkt : Market) (now : Nat) (hr : Reachable s) :
      Reachable (check_expired_options mkt now s).1
  | sweepHist (s : PState) (mkt : Market) (now : Nat) (hr : Reachable s) :
      Reachable (check_historical_dividends mkt now s).1
  | sweepUpcoming (s : PState) (mkt : Market) (now : Nat) (hr : Reachable s) :
      Reachable (fetch_upcoming_dividends mkt now s).1
  | sweepPayments (s : PState) (now : Nat) (hr : Reachable s) :
      Reachable (check_dividend_payments now s).1

/-- Encumbrance bound: no ticker has more encumbered shares than held
shares. -/
def EncOK (stocks : Dict String Position) (cc : Dict Nat CoveredCall) : Prop :=
  ∀ t, ((100 * encCount cc t : Nat) : ℚ) ≤ stockTotal stocks t

/-- The share-conservation invariant carried through the reachability
induction: contract keys are duplicate-free and no ticker has more
encumbered shares than held shares. -/
def GoodState (s : PState) : Prop :=
  (keysD s.covered_calls).Nodup ∧ EncOK s.stocks s.covered_calls

/-- Dividend ids are exactly 0..n-1 in order, i.e. the id scheme
`div_<len>` never collides (no entry was removed out of the middle). -/
def DivKeysContiguous (s : PState) : Prop :=
  keysD s.dividends = List.range s.dividends.length

/-- Every stored dividend has parsable ex-dividend and payment dates. -/
def DivDatesParsable (s : PState) : Prop :=
  ∀ p ∈ s.dividends, p.2.ex_div_date ≠ none ∧ p.2.payment_date ≠ none

/-- Every held position has a parsable purchase date. -/
def StockDatesParsable (s : PState) : Prop :=
  ∀ p ∈ s.stocks, p.2.purchase_date ≠ none

/-- A contract that the expiry sweep leaves alone: parsable expiration and
not yet past the 15:00 cutoff. -/
def ccQuiet (now : Nat) (c : CoveredCall) : Prop :=
  ∃ e, c.exp_date = some e ∧ now < e * 1440 + 900

/-- A dividend entry that the payment sweep leaves alone: parsable dates
and, when still pending, a payment day in the future. -/
def divQuiet (now : Nat) (d : Dividend) : Prop :=
  (d.ex_div_date ≠ none ∧ d.payment_date ≠ none) ∧
  (d.status = "pending" → ∀ pay, d.payment_date = some pay → now / 1440 < pay)

/-- The status-independent projection of a dividend dict: ids, tickers,
dates and amounts (everything the dedup scans look at). -/
def coreOf (dv : Dict Nat Dividend) :
    List (Nat × String × Option Nat × Option Nat × ℚ) :=
  dv.map (fun p => (p.1, p.2.ticker, p.2.ex_div_date, p.2.payment_date,
    p.2.dividend_per_share))

/-- A historical payment on day `d` for `t` counts as already tracked: some
entry has the same ticker and a parsed ex day within 5 days. -/
def HistTracked (dv : Dict Nat Dividend) (t : String) (d : Nat) : Prop :=
  ∃ p ∈ dv, p.2.ticker = t ∧
    ∃ e, p.2.ex_div_date = some e ∧ ((e : Int) - (d : Int)).natAbs ≤ 5

/-- Keys of a dividend dict are exactly 0..n-1 in order. -/
def ContigKeys (dv : Dict Nat Dividend) : Prop :=
  keysD dv = List.range dv.length

/-- All dividend entries of a dict have parsable dates. -/
def ParsableDivs (dv : Dict Nat Dividend) : Prop :=
  ∀ p ∈ dv, p.2.ex_div_date ≠ none ∧ p.2.payment_date ≠ none

/-- All positions of a dict have parsable purchase dates. -/
def ParsableStocks (stocks : Dict String Position) : Prop :=
  ∀ p ∈ stocks, p.2.purchase_date ≠ none

/-! Basic dictionary lemmas shared by the claim proofs. -/

theorem lookupD_insertD_self {κ α : Type} [DecidableEq κ] (m : Dict κ α) (k : κ) (v : α) :
    lookupD (insertD m k v) k = some v := by
  induction m with
  | nil => simp [insertD, lookupD]
  | cons p rest ih =>
    by_cases h : p.1 = k
    · simp [insertD, h, lookupD]
    · simp [insertD, h, lookupD, ih]

theorem lookupD_insertD_ne {κ α : Type} [DecidableEq κ] (m : Dict κ α) (k k2 : κ) (v : α)
    (h : k2 ≠ k) : lookupD (insertD m k v) k2 = lookupD m k2 := by
  induction m with
  | nil => simp [insertD, lookupD, Ne.symm h]
  | cons p rest ih =>
    by_cases hp : p.1 = k
    · subst hp
      simp [insertD, lookupD, Ne.symm h]
    · simp only [insertD, if_neg hp, lookupD]
      by_cases hp2 : p.1 = k2
      · simp [hp2]
      · simp [hp2, ih]

theorem lookupD_eraseD_self {κ α : Type} [DecidableEq κ] (m : Dict κ α) (k : κ) :
    lookupD (eraseD m k) k = none := by
  induction m with
  | nil => simp [eraseD, lookupD]
  | cons p rest ih =>
    by_cases h : p.1 = k
    · simp [eraseD, h, ih]
    · simp [eraseD, h, lookupD, ih]

theorem lookupD_eraseD_ne {κ α : Type} [DecidableEq κ] (m : Dict κ α) (k k2 : κ)
    (h : k2 ≠ k) : lookupD (eraseD m k) k2 = lookupD m k2 := by
  induction m with
  | nil => simp [eraseD, lookupD]
  | cons p rest ih =>
    by_cases hp : p.1 = k
    · subst hp
      simp [eraseD, lookupD, Ne.symm h, ih]
    · simp only [eraseD, if_neg hp, lookupD]
      by_cases hp2 : p.1 = k2
      · simp [hp2]
      · simp [hp2, ih]

theorem lookupD_mem {κ α : Type} [DecidableEq κ] (m : Dict κ α) (k : κ) (v : α)
    (h : lookupD m k = some v) : (k, v) ∈ m := by
  induction m with
  | nil => simp [lookupD] at h
  | cons p rest ih =>
    by_cases hp : p.1 = k
    · simp only [lookupD, if_pos hp] at h
      obtain ⟨p1, p2⟩ := p
      simp only [Option.some.injEq] at h
      simp_all [List.mem_cons]
    · simp only [lookupD, if_neg hp] at h
      exact List.mem_cons_of_mem _ (ih h)

/-! Step lemmas describing each branch of the expiry-sweep loop body. -/

theorem processCall_invalid (mkt : Market) (now : Nat) (st : PState) (notes : List Note)
    (cid : Nat) (call : CoveredCall) (hexp : call.exp_date = none) :
    processCall mkt now (st, notes) (cid, call) =
      ({ st with covered_calls := eraseD st.covered_calls cid },
       notes ++ [Note.invalidOptionRemoved call.ticker]) := by
  simp only [processCall, hexp]

theorem processCall_notdue (mkt : Market) (now : Nat) (st : PState) (notes : List Note)
    (cid : Nat) (call : CoveredCall) (e : Nat) (hexp : call.exp_date = some e)
    (h : ¬ now ≥ e * 1440 + 900) :
    processCall mkt now (st, notes) (cid, call) = (st, notes) := by
  simp only [processCall, hexp, if_neg h]

theorem processCall_worthless (mkt : Market) (now : Nat) (st : PState) (notes : List Note)
    (cid : Nat) (call : CoveredCall) (e : Nat) (hexp : call.exp_date = some e)
    (hdue : now ≥ e * 1440 + 900)
    (hlo : ¬ mkt.price call.ticker ≥ call.strike_price + 1 / 100) :
    processCall mkt now (st, notes) (cid, call) =
      ({ st with covered_calls := eraseD st.covered_calls cid },
       notes ++ [Note.expiredWorthless call.ticker]) := by
  simp only [processCall, hexp, if_pos hdue, if_neg hlo]

theorem processCall_shortfall_none (mkt : Market) (now : Nat) (st : PState)
    (notes : List Note) (cid : Nat) (call : CoveredCall) (e : Nat)
    (hexp : call.exp_date = some e) (hdue : now ≥ e * 1440 + 900)
    (hitm : mkt.price call.ticker ≥ call.strike_price + 1 / 100)
    (hl : lookupD st.stocks call.ticker = none) :
    processCall mkt now (st, notes) (cid, call) =
      ({ st with covered_calls := eraseD st.covered_calls cid },
       notes ++ [Note.exerciseShortfall call.ticker]) := by
  simp only [processCall, hexp, if_pos hdue, if_pos hitm, hl]

theorem processCall_shortfall_some (mkt : Market) (now : Nat) (st : PState)
    (notes : List Note) (cid : Nat) (call : CoveredCall) (e : Nat) (pos : Position)
    (hexp : call.exp_date = some e) (hdue : now ≥ e * 1440 + 900)
    (hitm : mkt.price call.ticker ≥ call.strike_price + 1 / 100)
    (hl : lookupD st.stocks call.ticker = some pos) (hsh : ¬ pos.shares ≥ 100) :
    processCall mkt now (st, notes) (cid, call) =
      ({ st with covered_calls := eraseD st.covered_calls cid },
       notes ++ [Note.exerciseShortfall call.ticker]) := by
  simp only [processCall, hexp, if_pos hdue, if_pos hitm, hl, if_neg hsh]

theorem processCall_exercised (mkt : Market) (now : Nat) (st : PState)
    (notes : List Note) (cid : Nat) (call : CoveredCall) (e : Nat) (pos : Position)
    (hexp : call.exp_date = some e) (hdue : now ≥ e * 1440 + 900)
    (hitm : mkt.price call.ticker ≥ call.strike_price + 1 / 100)
    (hl : lookupD st.stocks call.ticker = some pos) (hsh : pos.shares ≥ 100) :
    processCall mkt now (st, notes) (cid, call) =
      ({ st with
          stocks := if pos.shares - 100 ≤ 0 then eraseD st.stocks call.ticker
            else insertD st.stocks call.ticker
              ⟨pos.shares - 100, pos.purchase_price, pos.purchase_date⟩,
          cash_balance := st.cash_balance + call.strike_price * 100,
          covered_calls := eraseD st.covered_calls cid },
       notes ++ [Note.exercised call.ticker call.strike_price]) := by
  simp only [processCall, hexp, if_pos hdue, if_pos hitm, hl, if_pos hsh]

/-! Claim C2: buy semantics. -/

/-- C2: for every buy with positive shares and price (and a non-empty ticker
and parsable date, which the source validates): if `shares * price` exceeds
cash the operation fails with InsufficientCash (an error leaves the state
unchanged by construction of the model); otherwise it succeeds, cash is
debited by exactly `shares * price`, contracts and dividends and the other
positions are untouched, an existing position is averaged by the
weighted-average formula with its share count summed and its purchase date
retained, and a missing position is created from the arguments. -/
theorem C2_buy (s : PState) (ticker : String) (shares price : ℚ) (d : Nat)
    (ht : ticker ≠ "") (hs : 0 < shares) (hp : 0 < price) :
    (shares * price > s.cash_balance →
      add_stock s ticker shares price (some d) = Except.error OpError.insufficientCash) ∧
    (shares * price ≤ s.cash_balance →
      ∃ s2, add_stock s ticker shares price (some d) = Except.ok s2 ∧
        s2.cash_balance = s.cash_balance - shares * price ∧
        s2.covered_calls = s.covered_calls ∧
        s2.dividends = s.dividends ∧
        (∀ t2, t2 ≠ ticker → lookupD s2.stocks t2 = lookupD s.stocks t2) ∧
        (∀ pos, lookupD s.stocks ticker = some pos →
          lookupD s2.stocks ticker = some
            ⟨pos.shares + shares,
             (pos.shares * pos.purchase_price + shares * price) / (pos.shares + shares),
             pos.purchase_date⟩) ∧
        (lookupD s.stocks ticker = none →
          lookupD s2.stocks ticker = some ⟨shares, price, some d⟩)) := by
  have hvalid : ¬(ticker = "" ∨ shares ≤ 0 ∨ price ≤ 0) := by
    push_neg
    exact ⟨ht, hs, hp⟩
  constructor
  · intro hcash
    simp only [add_stock, if_neg hvalid, if_pos hcash]
  · intro hcash
    rcases hl : lookupD s.stocks ticker with _ | pos
    · simp only [add_stock, if_neg hvalid, if_neg (not_lt.mpr hcash), hl]
      refine ⟨_, rfl, rfl, rfl, rfl, ?_, ?_, ?_⟩
      · intro t2 h2
        exact lookupD_insertD_ne _ _ _ _ h2
      · intro pos hpos
        cases hpos
      · intro _
        exact lookupD_insertD_self _ _ _
    · simp only [add_stock, if_neg hvalid, if_neg (not_lt.mpr hcash), hl]
      refine ⟨_, rfl, rfl, rfl, rfl, ?_, ?_, ?_⟩
      · intro t2 h2
        exact lookupD_insertD_ne _ _ _ _ h2
      · intro pos2 hpos2
        injection hpos2 with hpos2
        subst hpos2
        rw [lookupD_insertD_self]
        congr 2
        ring
      · intro hnone
        cases hnone

/-- Witness for C2 at a concrete input: buying 2 shares at 10 with only 5
cash fails with InsufficientCash. -/
theorem C2_buy_witness :
    ((2 : ℚ) * 10 > (5 : ℚ)) ∧
    add_stock ⟨[], [], [], 5⟩ "A" 2 10 (some 7) =
      Except.error OpError.insufficientCash :=
  ⟨by norm_num,
   (C2_buy ⟨[], [], [], 5⟩ "A" 2 10 7 (by decide) (by norm_num) (by norm_num)).1
     (by norm_num)⟩

/-! Claim C5: encumbered shares are never sellable or re-encumberable. -/

/-- C5: selling more than the available shares of a ticker is always
rejected (either UnknownTicker or InsufficientAvailableShares), and opening
a covered call with fewer than 100 available shares is always rejected; a
rejected operation leaves positions, contracts and cash unchanged by
construction of the model. -/
theorem C5_rejections (s : PState) (mkt : Market) (t : String) (q : ℚ)
    (e : Option Nat) (strike prem : ℚ) (now : Nat) :
    (q > get_available_shares s t →
      ∃ err, remove_stock s mkt t q = Except.error err) ∧
    (get_available_shares s t < 100 →
      ∃ err, add_covered_call s t e strike prem now = Except.error err) := by
  constructor
  · intro hq
    rcases hl : lookupD s.stocks t with _ | pos
    · exact ⟨OpError.unknownTicker, by simp only [remove_stock, hl]⟩
    · exact ⟨OpError.insufficientAvailable, by simp only [remove_stock, hl, if_pos hq]⟩
  · intro hav
    by_cases hvalid : t = "" ∨ strike ≤ 0 ∨ prem ≤ 0
    · exact ⟨OpError.validation, by simp only [add_covered_call, if_pos hvalid]⟩
    · exact ⟨OpError.insufficientAvailable,
        by simp only [add_covered_call, if_neg hvalid, if_pos hav]⟩

/-- Witness for C5 at a concrete input: on the empty ledger no shares are
available, so selling 1 share and opening a call are both rejected. -/
theorem C5_rejections_witness :
    ((1 : ℚ) > get_available_shares ⟨[], [], [], 0⟩ "A" ∧
      ∃ err, remove_stock ⟨[], [], [], 0⟩
        ⟨fun _ => 5, fun _ => none, fun _ => none, fun _ => []⟩ "A" 1 =
          Except.error err) ∧
    (get_available_shares ⟨[], [], [], 0⟩ "A" < 100 ∧
      ∃ err, add_covered_call ⟨[], [], [], 0⟩ "A" (some 30) 6 1 0 =
        Except.error err) := by
  have h1 : (1 : ℚ) > get_available_shares ⟨[], [], [], 0⟩ "A" := by
    norm_num [get_available_shares, lookupD]
  have h2 : get_available_shares ⟨[], [], [], 0⟩ "A" < 100 := by
    norm_num [get_available_shares, lookupD]
  exact ⟨⟨h1, (C5_rejections ⟨[], [], [], 0⟩
      ⟨fun _ => 5, fun _ => none, fun _ => none, fun _ => []⟩ "A" 1 (some 30) 6 1 0).1 h1⟩,
    ⟨h2, (C5_rejections ⟨[], [], [], 0⟩
      ⟨fun _ => 5, fun _ => none, fun _ => none, fun _ => []⟩ "A" 1 (some 30) 6 1 0).2 h2⟩⟩

/-! Claim C6: the source does not validate the sell quantity. -/

/-- C6 (refuting the claim on the code): selling a negative quantity is not
rejected.  On a ledger holding 10 AAPL shares with 100 cash and a market
price of 5, `remove_stock` with quantity -5 succeeds, debits cash by 25 and
increases the position to 15 shares — the claimed ValidationError never
happens and both the share count and the cash balance change. -/
theorem C6_sell_negative_mutates :
    remove_stock ⟨[("AAPL", ⟨10, 20, some 1⟩)], [], [], 100⟩
      ⟨fun _ => 5, fun _ => none, fun _ => none, fun _ => []⟩ "AAPL" (-5) =
    Except.ok ⟨[("AAPL", ⟨15, 20, some 1⟩)], [], [], 75⟩ := by
  norm_num [remove_stock, lookupD, get_available_shares, get_shares_in_contracts,
    encCount, insertD]

/-! Claim C9: aggregate valuation. -/

theorem foldl_add_eq_sum {α : Type} (f : α → ℚ) (l : List α) (a : ℚ) :
    l.foldl (fun acc x => acc + f x) a = a + (l.map f).sum := by
  induction l generalizing a with
  | nil => simp
  | cons x rest ih => simp [ih, add_assoc]

theorem stockFold_fst (mkt : Market) (s : PState) (l : List (String × Position))
    (a : ℚ) (bs : Dict String TickerBreakdown) :
    (l.foldl (fun acc p => (acc.1 + p.2.shares * mkt.price p.1,
        acc.2 ++ [(p.1, tickerBreakdown mkt s p.1 p.2)])) (a, bs)).1
      = a + (l.map (fun p => p.2.shares * mkt.price p.1)).sum := by
  induction l generalizing a bs with
  | nil => simp
  | cons x rest ih => simp [ih, add_assoc]

/-- C9: the aggregate valuation satisfies
`stockValue = Σ shares * price` over held tickers,
`optionsValue = Σ premium * 100` over open contracts, and
`totalValue = stockValue + cash`; the options value is never added into the
total value. -/
theorem C9_valuation (mkt : Market) (s : PState) :
    (calculate_value mkt s).stock_value
        = (s.stocks.map (fun p => p.2.shares * mkt.price p.1)).sum ∧
    (calculate_value mkt s).options_value
        = (s.covered_calls.map (fun p => p.2.premium * 100)).sum ∧
    (calculate_value mkt s).total_value
        = (calculate_value mkt s).stock_value + s.cash_balance := by
  refine ⟨?_, ?_, ?_⟩
  · simp only [calculate_value]
    rw [stockFold_fst]
    simp
  · simp only [calculate_value]
    rw [foldl_add_eq_sum (fun p : Nat × CoveredCall => p.2.premium * 100) s.covered_calls 0]
    simp
  · simp only [calculate_value]

/-! Claim C3: the startup expiry sweep. -/

/-- C3: for every contract whose 15:00 expiration cutoff has passed, the
sweep step behaves as claimed: in the money (price at least strike + 0.01)
with at least 100 shares held, 100 shares are debited (the position is
deleted when it reaches zero), cash is credited by strike * 100 and the
contract is removed; in the money with fewer than 100 shares (or no
position), an inconsistency note is recorded and the contract is removed
with no share or cash effect; otherwise the contract expires worthless and
is removed with no share or cash effect.  In particular the spec section 8
scenario, starting from cash 10000, buying 100 AAPL at 50, opening a call
at strike 60 with premium 2, then sweeping at price 65 past expiration,
ends with the position deleted and cash 11200. -/
theorem C3_expiry_sweep :
    (∀ (mkt : Market) (now : Nat) (st : PState) (notes : List Note)
        (cid : Nat) (call : CoveredCall) (e : Nat),
      call.exp_date = some e → now ≥ e * 1440 + 900 →
      ((∀ pos, lookupD st.stocks call.ticker = some pos →
          mkt.price call.ticker ≥ call.strike_price + 1 / 100 → pos.shares ≥ 100 →
          (processCall mkt now (st, notes) (cid, call)).1.cash_balance
              = st.cash_balance + call.strike_price * 100 ∧
          lookupD (processCall mkt now (st, notes) (cid, call)).1.covered_calls cid = none ∧
          (pos.shares = 100 →
            lookupD (processCall mkt now (st, notes) (cid, call)).1.stocks call.ticker = none) ∧
          (pos.shares > 100 →
            lookupD (processCall mkt now (st, notes) (cid, call)).1.stocks call.ticker
              = some ⟨pos.shares - 100, pos.purchase_price, pos.purchase_date⟩) ∧
          (processCall mkt now (st, notes) (cid, call)).2
              = notes ++ [Note.exercised call.ticker call.strike_price]) ∧
       (mkt.price call.ticker ≥ call.strike_price + 1 / 100 →
          (lookupD st.stocks call.ticker = none ∨
           ∃ pos, lookupD st.stocks call.ticker = some pos ∧ pos.shares < 100) →
          processCall mkt now (st, notes) (cid, call)
            = ({ st with covered_calls := eraseD st.covered_calls cid },
               notes ++ [Note.exerciseShortfall call.ticker])) ∧
       (mkt.price call.ticker < call.strike_price + 1 / 100 →
          processCall mkt now (st, notes) (cid, call)
            = ({ st with covered_calls := eraseD st.covered_calls cid },
               notes ++ [Note.expiredWorthless call.ticker])))) ∧
    (add_stock ⟨[], [], [], 10000⟩ "AAPL" 100 50 (some 100)
        = Except.ok ⟨[("AAPL", ⟨100, 50, some 100⟩)], [], [], 5000⟩ ∧
     add_covered_call ⟨[("AAPL", ⟨100, 50, some 100⟩)], [], [], 5000⟩
        "AAPL" (some 200) 60 2 (150 * 1440)
        = Except.ok ⟨[("AAPL", ⟨100, 50, some 100⟩)],
            [(0, ⟨"AAPL", some 200, 50, 60, 2, 150⟩)], [], 5200⟩ ∧
     get_shares_in_contracts ⟨[("AAPL", ⟨100, 50, some 100⟩)],
        [(0, ⟨"AAPL", some 200, 50, 60, 2, 150⟩)], [], 5200⟩ "AAPL" = 100 ∧
     get_available_shares ⟨[("AAPL", ⟨100, 50, some 100⟩)],
        [(0, ⟨"AAPL", some 200, 50, 60, 2, 150⟩)], [], 5200⟩ "AAPL" = 0 ∧
     check_expired_options ⟨fun _ => 65, fun _ => none, fun _ => none, fun _ => []⟩
        (200 * 1440 + 900)
        ⟨[("AAPL", ⟨100, 50, some 100⟩)], [(0, ⟨"AAPL", some 200, 50, 60, 2, 150⟩)], [], 5200⟩
        = (⟨[], [], [], 11200⟩, [Note.exercised "AAPL" 60])) := by
  constructor
  · intro mkt now st notes cid call e hexp hdue
    refine ⟨?_, ?_, ?_⟩
    · intro pos hl hitm hsh
      rw [processCall_exercised mkt now st notes cid call e pos hexp hdue hitm hl hsh]
      refine ⟨rfl, lookupD_eraseD_self _ _, ?_, ?_, rfl⟩
      · intro h100
        have hz : pos.shares - 100 ≤ 0 := by rw [h100]; norm_num
        simp only [if_pos hz]
        exact lookupD_eraseD_self _ _
      · intro hgt
        have hz : ¬ pos.shares - 100 ≤ 0 := by linarith
        simp only [if_neg hz]
        exact lookupD_insertD_self _ _ _
    · intro hitm hcase
      rcases hcase with hnone | ⟨pos, hl, hlt⟩
      · exact processCall_shortfall_none mkt now st notes cid call e hexp hdue hitm hnone
      · exact processCall_shortfall_some mkt now st notes cid call e pos hexp hdue hitm hl
          (not_le.mpr hlt)
    · intro hlo
      exact processCall_worthless mkt now st notes cid call e hexp hdue (not_le.mpr hlo)
  · have hA : ¬(("AAPL" : String) = "") := by decide
    refine ⟨?_, ?_, ?_, ?_, ?_⟩
    · norm_num [add_stock, lookupD, insertD, hA]
    · norm_num [add_covered_call, get_available_shares, get_shares_in_contracts,
        encCount, lookupD, insertD, Int.fdiv, hA]
    · norm_num [get_shares_in_contracts, encCount]
    · norm_num [get_available_shares, get_shares_in_contracts, encCount, lookupD]
    · norm_num [check_expired_options, processCall, lookupD, eraseD, insertD,
        get_available_shares, get_shares_in_contracts, encCount]

/-- Witness for C3 at a concrete input: a due contract that is out of the
money expires worthless, removing the contract with no share or cash
effect. -/
theorem C3_expiry_sweep_witness :
    ((⟨"A", some 10, 0, 60, 2, 5⟩ : CoveredCall).exp_date = some 10 ∧
      10 * 1440 + 900 ≥ 10 * 1440 + 900 ∧
      Market.price ⟨fun _ => 50, fun _ => none, fun _ => none, fun _ => []⟩ "A"
        < (60 : ℚ) + 1 / 100) ∧
    processCall ⟨fun _ => 50, fun _ => none, fun _ => none, fun _ => []⟩
        (10 * 1440 + 900) (⟨[], [], [], 7⟩, []) (3, ⟨"A", some 10, 0, 60, 2, 5⟩)
      = (⟨[], [], [], 7⟩, [Note.expiredWorthless "A"]) := by
  have hlo : Market.price ⟨fun _ => 50, fun _ => none, fun _ => none, fun _ => []⟩ "A"
      < (60 : ℚ) + 1 / 100 := by norm_num
  refine ⟨⟨rfl, le_refl _, hlo⟩, ?_⟩
  have h := ((C3_expiry_sweep.1 ⟨fun _ => 50, fun _ => none, fun _ => none, fun _ => []⟩
      (10 * 1440 + 900) ⟨[], [], [], 7⟩ [] 3 ⟨"A", some 10, 0, 60, 2, 5⟩ 10 rfl
      (le_refl _)).2.2) hlo
  rw [h]
  norm_num [eraseD]

/-! Step lemmas describing each branch of the dividend-payment-sweep loop
body. -/

theorem processDividend_invalid (now : Nat) (st : PState) (notes : List Note)
    (did : Nat) (d : Dividend) (h : d.ex_div_date = none ∨ d.payment_date = none) :
    processDividend now (st, notes) (did, d) =
      ({ st with dividends := eraseD st.dividends did },
       notes ++ [Note.invalidDividendRemoved d.ticker]) := by
  rcases hex : d.ex_div_date with _ | ex
  · simp only [processDividend, hex]
  · rcases hpay : d.payment_date with _ | pay
    · simp only [processDividend, hex, hpay]
    · rcases h with h | h
      · rw [hex] at h
        cases h
      · rw [hpay] at h
        cases h

theorem processDividend_notdue (now : Nat) (st : PState) (notes : List Note)
    (did : Nat) (d : Dividend) (ex pay : Nat)
    (hex : d.ex_div_date = some ex) (hpay : d.payment_date = some pay)
    (h : ¬(now / 1440 ≥ pay ∧ d.status = "pending")) :
    processDividend now (st, notes) (did, d) = (st, notes) := by
  simp only [processDividend, hex, hpay, if_neg h]

theorem processDividend_paid (now : Nat) (st : PState) (notes : List Note)
    (did : Nat) (d : Dividend) (ex pay : Nat) (pos : Position) (pd : Nat)
    (hex : d.ex_div_date = some ex) (hpay : d.payment_date = some pay)
    (hdue : now / 1440 ≥ pay) (hst : d.status = "pending")
    (hl : lookupD st.stocks d.ticker = some pos)
    (hpd : pos.purchase_date = some pd) (hlt : pd < ex) :
    processDividend now (st, notes) (did, d) =
      ({ st with
          cash_balance := st.cash_balance + pos.shares * d.dividend_per_share,
          dividends := insertD st.dividends did { d with status := "paid" } },
       notes ++ [Note.dividendPaid d.ticker (pos.shares * d.dividend_per_share)]) := by
  simp only [processDividend, hex, hpay, if_pos (And.intro hdue hst), hl, hpd,
    if_pos hlt]

theorem processDividend_ineligible_purchase (now : Nat) (st : PState)
    (notes : List Note) (did : Nat) (d : Dividend) (ex pay : Nat) (pos : Position)
    (pd : Nat) (hex : d.ex_div_date = some ex) (hpay : d.payment_date = some pay)
    (hdue : now / 1440 ≥ pay) (hst : d.status = "pending")
    (hl : lookupD st.stocks d.ticker = some pos)
    (hpd : pos.purchase_date = some pd) (hge : ¬ pd < ex) :
    processDividend now (st, notes) (did, d) =
      ({ st with dividends := insertD st.dividends did { d with status := "ineligible" } },
       notes ++ [Note.ineligibleAfterExDate d.ticker]) := by
  simp only [processDividend, hex, hpay, if_pos (And.intro hdue hst), hl, hpd,
    if_neg hge]

theorem processDividend_ineligible_noshares (now : Nat) (st : PState)
    (notes : List Note) (did : Nat) (d : Dividend) (ex pay : Nat)
    (hex : d.ex_div_date = some ex) (hpay : d.payment_date = some pay)
    (hdue : now / 1440 ≥ pay) (hst : d.status = "pending")
    (hl : lookupD st.stocks d.ticker = none) :
    processDividend now (st, notes) (did, d) =
      ({ st with dividends := insertD st.dividends did { d with status := "ineligible" } },
       notes ++ [Note.ineligibleNoShares d.ticker]) := by
  simp only [processDividend, hex, hpay, if_pos (And.intro hdue hst), hl]

theorem processDividend_purchase_invalid (now : Nat) (st : PState)
    (notes : List Note) (did : Nat) (d : Dividend) (ex pay : Nat) (pos : Position)
    (hex : d.ex_div_date = some ex) (hpay : d.payment_date = some pay)
    (hdue : now / 1440 ≥ pay) (hst : d.status = "pending")
    (hl : lookupD st.stocks d.ticker = some pos)
    (hpd : pos.purchase_date = none) :
    processDividend now (st, notes) (did, d) =
      ({ st with dividends := eraseD st.dividends did },
       notes ++ [Note.invalidDividendRemoved d.ticker]) := by
  simp only [processDividend, hex, hpay, if_pos (And.intro hdue hst), hl, hpd]

/-! Claim C4: the dividend eligibility/payment sweep. -/

/-- C4: for every pending dividend whose payment day has arrived, the sweep
step credits `shares * perShare` at the current share count and marks the
entry "paid" when the ticker is held with a (parsable) purchase date
strictly before the ex-dividend date; marks it "ineligible" with no cash
effect when the ticker is not held or was purchased on or after the
ex-date; and a dividend with an unparsable date is deleted.  Positions and
contracts are never touched. -/
theorem C4_dividend_sweep :
    (∀ (now : Nat) (st : PState) (notes : List Note) (did : Nat) (d : Dividend)
        (ex pay : Nat),
      d.ex_div_date = some ex → d.payment_date = some pay →
      d.status = "pending" → now / 1440 ≥ pay →
      ((∀ pos pd, lookupD st.stocks d.ticker = some pos →
          pos.purchase_date = some pd → pd < ex →
          (processDividend now (st, notes) (did, d)).1.cash_balance
              = st.cash_balance + pos.shares * d.dividend_per_share ∧
          lookupD (processDividend now (st, notes) (did, d)).1.dividends did
              = some { d with status := "paid" } ∧
          (processDividend now (st, notes) (did, d)).1.stocks = st.stocks ∧
          (processDividend now (st, notes) (did, d)).1.covered_calls = st.covered_calls ∧
          (processDividend now (st, notes) (did, d)).2
              = notes ++ [Note.dividendPaid d.ticker (pos.shares * d.dividend_per_share)]) ∧
       (∀ pos pd, lookupD st.stocks d.ticker = some pos →
          pos.purchase_date = some pd → ¬ pd < ex →
          (processDividend now (st, notes) (did, d)).1.cash_balance = st.cash_balance ∧
          lookupD (processDividend now (st, notes) (did, d)).1.dividends did
              = some { d with status := "ineligible" } ∧
          (processDividend now (st, notes) (did, d)).1.stocks = st.stocks) ∧
       (lookupD st.stocks d.ticker = none →
          (processDividend now (st, notes) (did, d)).1.cash_balance = st.cash_balance ∧
          lookupD (processDividend now (st, notes) (did, d)).1.dividends did
              = some { d with status := "ineligible" } ∧
          (processDividend now (st, notes) (did, d)).1.stocks = st.stocks))) ∧
    (∀ (now : Nat) (st : PState) (notes : List Note) (did : Nat) (d : Dividend),
      (d.ex_div_date = none ∨ d.payment_date = none) →
      processDividend now (st, notes) (did, d) =
        ({ st with dividends := eraseD st.dividends did },
         notes ++ [Note.invalidDividendRemoved d.ticker])) := by
  constructor
  · intro now st notes did d ex pay hex hpay hst hdue
    refine ⟨?_, ?_, ?_⟩
    · intro pos pd hl hpd hlt
      rw [processDividend_paid now st notes did d ex pay pos pd hex hpay hdue hst hl hpd hlt]
      exact ⟨rfl, lookupD_insertD_self _ _ _, rfl, rfl, rfl⟩
    · intro pos pd hl hpd hge
      rw [processDividend_ineligible_purchase now st notes did d ex pay pos pd hex hpay
        hdue hst hl hpd hge]
      exact ⟨rfl, lookupD_insertD_self _ _ _, rfl⟩
    · intro hl
      rw [processDividend_ineligible_noshares now st notes did d ex pay hex hpay hdue hst hl]
      exact ⟨rfl, lookupD_insertD_self _ _ _, rfl⟩
  · intro now st notes did d h
    exact processDividend_invalid now st notes did d h

/-- Witness for C4 at a concrete input: the spec section 8 dividend
scenario.  A pending dividend of 0.5 per share with ex day 10 and payment
day 25, on a ticker held as 100 shares purchased on day 1, swept on day 25,
credits 50 and is marked paid. -/
theorem C4_dividend_sweep_witness :
    ((⟨"AAPL", some 10, some 25, 1 / 2, "pending"⟩ : Dividend).ex_div_date = some 10 ∧
     (⟨"AAPL", some 10, some 25, 1 / 2, "pending"⟩ : Dividend).status = "pending" ∧
     (25 * 1440 : Nat) / 1440 ≥ 25 ∧ (1 : Nat) < 10) ∧
    (processDividend (25 * 1440)
        (⟨[("AAPL", ⟨100, 50, some 1⟩)], [], [], 0⟩, []) (0, ⟨"AAPL", some 10, some 25, 1 / 2, "pending"⟩)).1.cash_balance
      = 0 + (100 : ℚ) * (1 / 2) := by
  have h := ((C4_dividend_sweep.1 (25 * 1440)
      ⟨[("AAPL", ⟨100, 50, some 1⟩)], [], [], 0⟩ [] 0
      ⟨"AAPL", some 10, some 25, 1 / 2, "pending"⟩ 10 25 rfl rfl rfl
      (by norm_num)).1 ⟨100, 50, some 1⟩ 1 (by simp [lookupD]) rfl
      (by norm_num)).1
  exact ⟨⟨rfl, rfl, by norm_num, by norm_num⟩, h⟩

/-! Claim C10: id generation and frame effect of the add operations. -/

/-- C10 counterexample: the generated id is not always fresh and does not
always leave previously tracked entries unchanged.  On a dividend set whose
ids are 0 and 2 (entry 1 was removed), the generated id `div_2` collides:
adding a new dividend overwrites the tracked entry with id 2. -/
theorem C10_id_collision_overwrites :
    lookupD ([(0, ⟨"Z", some 1, some 2, 1, "paid"⟩),
              (2, ⟨"X", some 97, some 100, 1, "paid"⟩)] : Dict Nat Dividend) 2
      = some ⟨"X", some 97, some 100, 1, "paid"⟩ ∧
    ∃ s2, add_dividend ⟨[], [], [(0, ⟨"Z", some 1, some 2, 1, "paid"⟩),
              (2, ⟨"X", some 97, some 100, 1, "paid"⟩)], 0⟩
        "MSFT" (some 10) (some 20) 1 = Except.ok s2 ∧
      lookupD s2.dividends 2 ≠ some ⟨"X", some 97, some 100, 1, "paid"⟩ := by
  have hM : ¬(("MSFT" : String) = "" ∨ (1 : ℚ) ≤ 0) := by
    push_neg
    exact ⟨by decide, by norm_num⟩
  have h20 : ¬((20 : Nat) ≤ 10) := by norm_num
  constructor
  · simp [lookupD]
  · simp only [add_dividend, if_neg hM, if_neg h20]
    refine ⟨_, rfl, ?_⟩
    simp [insertD, lookupD]

/-- C10 amended: adding a dividend or a covered call stores the new entry
under the generated id `div_<count>` / `call_<count>` and leaves every
entry with a different id unchanged; when no entry bears the generated id
the id is fresh, so every previously tracked entry is unchanged, but after
removals the generated id may name an existing entry, which is then
overwritten in place. -/
theorem C10_add_frame (s : PState) (ticker : String) (e p : Nat) (q : ℚ)
    (strike prem : ℚ) (now : Nat)
    (ht : ticker ≠ "") (hq : 0 < q) (hep : e < p)
    (hstrike : 0 < strike) (hprem : 0 < prem)
    (hav : ¬ get_available_shares s ticker < 100) :
    (∃ s2, add_dividend s ticker (some e) (some p) q = Except.ok s2 ∧
      s2.stocks = s.stocks ∧ s2.covered_calls = s.covered_calls ∧
      s2.cash_balance = s.cash_balance ∧
      lookupD s2.dividends s.dividends.length
        = some ⟨ticker, some e, some p, q, "pending"⟩ ∧
      (∀ k, k ≠ s.dividends.length →
        lookupD s2.dividends k = lookupD s.dividends k)) ∧
    (∃ s2, add_covered_call s ticker (some e) strike prem now = Except.ok s2 ∧
      s2.stocks = s.stocks ∧ s2.dividends = s.dividends ∧
      s2.cash_balance = s.cash_balance + prem * 100 ∧
      lookupD s2.covered_calls s.covered_calls.length
        = some ⟨ticker, some e, Int.fdiv ((e : Int) * 1440 - (now : Int)) 1440,
            strike, prem, now / 1440⟩ ∧
      (∀ k, k ≠ s.covered_calls.length →
        lookupD s2.covered_calls k = lookupD s.covered_calls k)) := by
  constructor
  · have hvalid : ¬(ticker = "" ∨ q ≤ 0) := by
      push_neg
      exact ⟨ht, hq⟩
    simp only [add_dividend, if_neg hvalid, if_neg (not_le.mpr hep)]
    refine ⟨_, rfl, rfl, rfl, rfl, lookupD_insertD_self _ _ _, ?_⟩
    intro k hk
    exact lookupD_insertD_ne _ _ _ _ hk
  · have hvalid : ¬(ticker = "" ∨ strike ≤ 0 ∨ prem ≤ 0) := by
      push_neg
      exact ⟨ht, hstrike, hprem⟩
    simp only [add_covered_call, if_neg hvalid, if_neg hav]
    refine ⟨_, rfl, rfl, rfl, rfl, lookupD_insertD_self _ _ _, ?_⟩
    intro k hk
    exact lookupD_insertD_ne _ _ _ _ hk

/-- Witness for the amended C10 at a concrete input: on a ledger holding
100 shares of A, adding a dividend and adding a covered call both store the
new entry under the generated id and leave the other entries unchanged. -/
theorem C10_add_frame_witness :
    (("A" : String) ≠ "" ∧ (0 : ℚ) < 1 ∧ (5 : Nat) < 9 ∧ (0 : ℚ) < 60 ∧ (0 : ℚ) < 2 ∧
      ¬ get_available_shares ⟨[("A", ⟨100, 50, some 1⟩)], [], [], 0⟩ "A" < 100) ∧
    (∃ s2, add_dividend ⟨[("A", ⟨100, 50, some 1⟩)], [], [], 0⟩ "A"
        (some 5) (some 9) 1 = Except.ok s2 ∧
      s2.stocks = [("A", ⟨100, 50, some 1⟩)] ∧ s2.covered_calls = [] ∧
      s2.cash_balance = 0 ∧
      lookupD s2.dividends 0 = some ⟨"A", some 5, some 9, 1, "pending"⟩ ∧
      (∀ k, k ≠ 0 → lookupD s2.dividends k = lookupD ([] : Dict Nat Dividend) k)) := by
  have hav : ¬ get_available_shares ⟨[("A", ⟨100, 50, some 1⟩)], [], [], 0⟩ "A" < 100 := by
    norm_num [get_available_shares, get_shares_in_contracts, encCount, lookupD]
  have h := C10_add_frame ⟨[("A", ⟨100, 50, some 1⟩)], [], [], 0⟩ "A" 5 9 1 60 2 0
    (by decide) (by norm_num) (by norm_num) (by norm_num) (by norm_num) hav
  exact ⟨⟨by decide, by norm_num, by norm_num, by norm_num, by norm_num, hav⟩, h.1⟩

/-! Claim C7: order of the startup reconciliation procedures. -/

/-- C7: the startup reconciliation runs option expiry first, then
historical backfill, then upcoming discovery, then the pending/due payment
sweep, threading the state left to right and concatenating the four notice
lists in that order.  The order is observable: on a concrete ledger where a
due in-the-money contract consumes the whole position that a due pending
dividend would pay on, running expiry before the payment sweep (as the
source does) marks the dividend ineligible (cash 6000), while the opposite
order would pay it first (cash 6100). -/
theorem C7_startup_order :
    (∀ (mkt : Market) (now : Nat) (s : PState),
      startup_sweep mkt now s =
        ((check_dividend_payments now
            (fetch_upcoming_dividends mkt now
              (check_historical_dividends mkt now
                (check_expired_options mkt now s).1).1).1).1,
         (check_expired_options mkt now s).2 ++
         (check_historical_dividends mkt now (check_expired_options mkt now s).1).2 ++
         (fetch_upcoming_dividends mkt now
            (check_historical_dividends mkt now (check_expired_options mkt now s).1).1).2 ++
         (check_dividend_payments now
            (fetch_upcoming_dividends mkt now
              (check_historical_dividends mkt now
                (check_expired_options mkt now s).1).1).1).2)) ∧
    ((check_dividend_payments (30 * 1440)
        (check_expired_options ⟨fun _ => 65, fun _ => none, fun _ => none, fun _ => []⟩
          (30 * 1440)
          ⟨[("A", ⟨100, 50, some 1⟩)], [(0, ⟨"A", some 10, 0, 60, 2, 5⟩)],
           [(0, ⟨"A", some 5, some 20, 1, "pending"⟩)], 0⟩).1).1.cash_balance = 6000 ∧
     (check_expired_options ⟨fun _ => 65, fun _ => none, fun _ => none, fun _ => []⟩
        (30 * 1440)
        (check_dividend_payments (30 * 1440)
          ⟨[("A", ⟨100, 50, some 1⟩)], [(0, ⟨"A", some 10, 0, 60, 2, 5⟩)],
           [(0, ⟨"A", some 5, some 20, 1, "pending"⟩)], 0⟩).1).1.cash_balance = 6100) := by
  refine ⟨fun mkt now s => rfl, ?_, ?_⟩
  · norm_num [check_expired_options, processCall, check_dividend_payments,
      processDividend, lookupD, eraseD, insertD]
  · norm_num [check_expired_options, processCall, check_dividend_payments,
      processDividend, lookupD, eraseD, insertD]

/-! Counting and key lemmas for the share-conservation induction (C1). -/

theorem encCount_nonneg (cc : Dict Nat CoveredCall) (t : String) :
    (0 : ℚ) ≤ ((100 * encCount cc t : Nat) : ℚ) := by
  positivity

theorem encCount_eraseD_le (cc : Dict Nat CoveredCall) (k : Nat) (t : String) :
    encCount (eraseD cc k) t ≤ encCount cc t := by
  induction cc with
  | nil => simp [eraseD]
  | cons p rest ih =>
    by_cases h : p.1 = k
    · simp only [eraseD, if_pos h, encCount]
      omega
    · simp only [eraseD, if_neg h, encCount]
      omega

theorem encCount_insertD_le (cc : Dict Nat CoveredCall) (k : Nat) (c : CoveredCall)
    (t : String) :
    encCount (insertD cc k c) t ≤ encCount cc t + (if c.ticker = t then 1 else 0) := by
  induction cc with
  | nil => simp [insertD, encCount]
  | cons p rest ih =>
    by_cases h : p.1 = k
    · simp only [insertD, if_pos h, encCount]
      omega
    · simp only [insertD, if_neg h, encCount]
      omega

theorem encCount_insertD_ne_le (cc : Dict Nat CoveredCall) (k : Nat) (c : CoveredCall)
    (t : String) (h : c.ticker ≠ t) :
    encCount (insertD cc k c) t ≤ encCount cc t := by
  have h2 := encCount_insertD_le cc k c t
  rw [if_neg h] at h2
  omega

theorem encCount_eraseD_mem (cc : Dict Nat CoveredCall) (k : Nat) (c : CoveredCall)
    (t : String) (hmem : (k, c) ∈ cc) (ht : c.ticker = t) :
    encCount (eraseD cc k) t + 1 ≤ encCount cc t := by
  induction cc with
  | nil => cases hmem
  | cons p rest ih =>
    by_cases h : p.1 = k
    · simp only [eraseD, if_pos h, encCount]
      rcases List.mem_cons.mp hmem with heq | hrest
      · have hpt : p.2.ticker = t := by rw [← heq] at *; exact ht
        have := encCount_eraseD_le rest k t
        simp [hpt]
        omega
      · have := ih hrest
        have h0 : (0 : Nat) ≤ (if p.2.ticker = t then 1 else 0) := by positivity
        omega
    · simp only [eraseD, if_neg h, encCount]
      rcases List.mem_cons.mp hmem with heq | hrest
      · exfalso
        apply h
        rw [← heq]
      · have := ih hrest
        omega

theorem mem_keysD_insertD {κ α : Type} [DecidableEq κ] (m : Dict κ α) (k x : κ) (v : α)
    (hx : x ∈ keysD (insertD m k v)) : x ∈ keysD m ∨ x = k := by
  induction m with
  | nil =>
    simp [insertD, keysD] at hx
    exact Or.inr hx
  | cons p rest ih =>
    by_cases h : p.1 = k
    · simp only [insertD, if_pos h, keysD, List.map_cons, List.mem_cons] at hx
      rcases hx with hx | hx
      · exact Or.inr hx
      · exact Or.inl (List.mem_cons_of_mem _ hx)
    · simp only [insertD, if_neg h, keysD, List.map_cons, List.mem_cons] at hx
      rcases hx with hx | hx
      · exact Or.inl (hx ▸ List.mem_cons_self _ _)
      · rcases ih hx with h2 | h2
        · exact Or.inl (List.mem_cons_of_mem _ h2)
        · exact Or.inr h2

theorem nodup_keysD_insertD {κ α : Type} [DecidableEq κ] (m : Dict κ α) (k : κ) (v : α)
    (h : (keysD m).Nodup) : (keysD (insertD m k v)).Nodup := by
  induction m with
  | nil => simp [insertD, keysD]
  | cons p rest ih =>
    simp only [keysD, List.map_cons, List.nodup_cons] at h
    by_cases hp : p.1 = k
    · simp only [insertD, if_pos hp, keysD, List.map_cons, List.nodup_cons]
      rw [← hp]
      exact h
    · simp only [insertD, if_neg hp, keysD, List.map_cons, List.nodup_cons]
      refine ⟨?_, ih h.2⟩
      intro hmem
      rcases mem_keysD_insertD rest k p.1 v hmem with h2 | h2
      · exact h.1 h2
      · exact hp h2

theorem keysD_eraseD_sublist {κ α : Type} [DecidableEq κ] (m : Dict κ α) (k : κ) :
    (keysD (eraseD m k)).Sublist (keysD m) := by
  induction m with
  | nil => simp [eraseD, keysD]
  | cons p rest ih =>
    by_cases h : p.1 = k
    · simp only [eraseD, if_pos h, keysD, List.map_cons]
      exact ih.cons _
    · simp only [eraseD, if_neg h, keysD, List.map_cons]
      exact ih.cons₂ _

theorem nodup_keysD_eraseD {κ α : Type} [DecidableEq κ] (m : Dict κ α) (k : κ)
    (h : (keysD m).Nodup) : (keysD (eraseD m k)).Nodup :=
  (keysD_eraseD_sublist m k).nodup h

theorem stockTotal_insertD_self (stocks : Dict String Position) (t : String)
    (pos : Position) : stockTotal (insertD stocks t pos) t = pos.shares := by
  simp [stockTotal, lookupD_insertD_self]

theorem stockTotal_insertD_ne (stocks : Dict String Position) (t t2 : String)
    (pos : Position) (h : t2 ≠ t) :
    stockTotal (insertD stocks t pos) t2 = stockTotal stocks t2 := by
  simp [stockTotal, lookupD_insertD_ne _ _ _ _ h]

theorem stockTotal_eraseD_self (stocks : Dict String Position) (t : String) :
    stockTotal (eraseD stocks t) t = 0 := by
  simp [stockTotal, lookupD_eraseD_self]

theorem stockTotal_eraseD_ne (stocks : Dict String Position) (t t2 : String)
    (h : t2 ≠ t) : stockTotal (eraseD stocks t) t2 = stockTotal stocks t2 := by
  simp [stockTotal, lookupD_eraseD_ne _ _ _ h]

/-! Preservation of the share-conservation invariant by every operation. -/

theorem goodState_of_eq (s s2 : PState) (hg : GoodState s)
    (hst : s2.stocks = s.stocks) (hcc : s2.covered_calls = s.covered_calls) :
    GoodState s2 := by
  unfold GoodState at *
  rw [hst, hcc]
  exact hg

theorem encOK_eraseD_cc (stocks : Dict String Position) (cc : Dict Nat CoveredCall)
    (k : Nat) (h : EncOK stocks cc) : EncOK stocks (eraseD cc k) := by
  intro t
  refine le_trans ?_ (h t)
  exact_mod_cast Nat.mul_le_mul_left 100 (encCount_eraseD_le cc k t)

theorem encOK_insert_stock_ge (stocks : Dict String Position)
    (cc : Dict Nat CoveredCall) (t : String) (pos1 : Position)
    (hok : EncOK stocks cc) (hge : stockTotal stocks t ≤ pos1.shares) :
    EncOK (insertD stocks t pos1) cc := by
  intro t2
  by_cases ht : t2 = t
  · subst ht
    rw [stockTotal_insertD_self]
    exact le_trans (hok t2) hge
  · rw [stockTotal_insertD_ne _ _ _ _ ht]
    exact hok t2

theorem encOK_exercise (stocks : Dict String Position) (cc : Dict Nat CoveredCall)
    (cid : Nat) (call : CoveredCall) (pos pos1 : Position)
    (hok : EncOK stocks cc) (hmem : (cid, call) ∈ cc)
    (hl : lookupD stocks call.ticker = some pos) (hsh : 100 ≤ pos.shares)
    (hp1 : pos1.shares = pos.shares - 100) :
    EncOK (if pos.shares - 100 ≤ 0 then eraseD stocks call.ticker
           else insertD stocks call.ticker pos1) (eraseD cc cid) := by
  intro t
  by_cases ht : t = call.ticker
  · subst ht
    have hdec := encCount_eraseD_mem cc cid call call.ticker hmem rfl
    have hdecQ : ((encCount (eraseD cc cid) call.ticker : ℚ)) + 1
        ≤ (encCount cc call.ticker : ℚ) := by exact_mod_cast hdec
    have hbound := hok call.ticker
    rw [show stockTotal stocks call.ticker = pos.shares by simp [stockTotal, hl]] at hbound
    push_cast at hbound
    by_cases hz : pos.shares - 100 ≤ 0
    · rw [if_pos hz, stockTotal_eraseD_self]
      push_cast
      linarith
    · rw [if_neg hz, stockTotal_insertD_self, hp1]
      push_cast
      linarith
  · have henc : encCount (eraseD cc cid) t ≤ encCount cc t := encCount_eraseD_le cc cid t
    have hencQ : ((100 * encCount (eraseD cc cid) t : Nat) : ℚ)
        ≤ ((100 * encCount cc t : Nat) : ℚ) := by
      exact_mod_cast Nat.mul_le_mul_left 100 henc
    by_cases hz : pos.shares - 100 ≤ 0
    · rw [if_pos hz, stockTotal_eraseD_ne _ _ _ ht]
      exact le_trans hencQ (hok t)
    · rw [if_neg hz, stockTotal_insertD_ne _ _ _ _ ht]
      exact le_trans hencQ (hok t)

theorem goodState_add_stock (s s2 : PState) (t : String) (sh pr : ℚ) (pd : Option Nat)
    (hg : GoodState s) (h : add_stock s t sh pr pd = .ok s2) : GoodState s2 := by
  unfold add_stock at h
  split at h
  · cases h
  · split at h
    · cases h
    · rename_i hvalid _
      have hsh : 0 < sh := by
        push_neg at hvalid
        exact hvalid.2.1
      split at h
      · cases h
      · rename_i d
        dsimp only at h
        split at h
        · rename_i pos hl
          injection h with h
          subst h
          refine ⟨hg.1, encOK_insert_stock_ge _ _ _ _ hg.2 ?_⟩
          have hst : stockTotal s.stocks t = pos.shares := by simp [stockTotal, hl]
          rw [hst]
          show pos.shares ≤ pos.shares + sh
          linarith
        · rename_i hl
          injection h with h
          subst h
          refine ⟨hg.1, encOK_insert_stock_ge _ _ _ _ hg.2 ?_⟩
          have hst : stockTotal s.stocks t = 0 := by simp [stockTotal, hl]
          rw [hst]
          show (0 : ℚ) ≤ sh
          linarith

theorem goodState_remove_stock (s s2 : PState) (mkt : Market) (t : String) (q : ℚ)
    (hg : GoodState s) (h : remove_stock s mkt t q = .ok s2) : GoodState s2 := by
  unfold remove_stock at h
  split at h
  · cases h
  · rename_i pos hl
    split at h
    · cases h
    · rename_i havail
      split at h
      · cases h
      · dsimp only at h
        push_neg at havail
        have hmax : get_available_shares s t
            = pos.shares - ((100 * encCount s.covered_calls t : Nat) : ℚ) := by
          have hb := hg.2 t
          rw [show stockTotal s.stocks t = pos.shares by simp [stockTotal, hl]] at hb
          simp only [get_available_shares, hl, get_shares_in_contracts]
          exact max_eq_right (by linarith)
        rw [hmax] at havail
        split at h
        · rename_i hqge
          injection h with h
          subst h
          refine ⟨hg.1, ?_⟩
          intro t2
          by_cases ht : t2 = t
          · subst ht
            rw [stockTotal_eraseD_self]
            have hnn := encCount_nonneg s.covered_calls t2
            linarith
          · rw [stockTotal_eraseD_ne _ _ _ ht]
            exact hg.2 t2
        · rename_i hqlt
          injection h with h
          subst h
          refine ⟨hg.1, ?_⟩
          intro t2
          by_cases ht : t2 = t
          · subst ht
            rw [stockTotal_insertD_self]
            show ((100 * encCount s.covered_calls t2 : Nat) : ℚ) ≤ pos.shares - q
            linarith
          · rw [stockTotal_insertD_ne _ _ _ _ ht]
            exact hg.2 t2

theorem goodState_add_covered_call (s s2 : PState) (t : String) (e : Option Nat)
    (strike prem : ℚ) (now : Nat) (hg : GoodState s)
    (h : add_covered_call s t e strike prem now = .ok s2) : GoodState s2 := by
  unfold add_covered_call at h
  split at h
  · cases h
  · split at h
    · cases h
    · rename_i hav
      push_neg at hav
      split at h
      · cases h
      · rename_i e2
        dsimp only at h
        injection h with h
        subst h
        rcases hl : lookupD s.stocks t with _ | pos
        · exfalso
          rw [show get_available_shares s t = 0 by simp [get_available_shares, hl]] at hav
          linarith
        · have hbound := hg.2 t
          rw [show stockTotal s.stocks t = pos.shares by simp [stockTotal, hl]] at hbound
          rw [show get_available_shares s t
              = max 0 (pos.shares - ((100 * encCount s.covered_calls t : Nat) : ℚ)) by
            simp [get_available_shares, hl, get_shares_in_contracts]] at hav
          have hroom : (100 : ℚ) ≤ pos.shares - ((100 * encCount s.covered_calls t : Nat) : ℚ) := by
            rcases le_max_iff.mp hav with h1 | h1
            · linarith
            · exact h1
          refine ⟨nodup_keysD_insertD _ _ _ hg.1, ?_⟩
          intro t2
          by_cases ht : t2 = t
          · subst ht
            have hcnt := encCount_insertD_le s.covered_calls s.covered_calls.length
              ⟨t2, some e2, Int.fdiv ((e2 : Int) * 1440 - (now : Int)) 1440,
               strike, prem, now / 1440⟩ t2
            rw [if_pos rfl] at hcnt
            have hcntQ : ((100 * encCount (insertD s.covered_calls s.covered_calls.length
                ⟨t2, some e2, Int.fdiv ((e2 : Int) * 1440 - (now : Int)) 1440,
                 strike, prem, now / 1440⟩) t2 : Nat) : ℚ)
                ≤ ((100 * (encCount s.covered_calls t2 + 1) : Nat) : ℚ) := by
              exact_mod_cast Nat.mul_le_mul_left 100 hcnt
            rw [show stockTotal s.stocks t2 = pos.shares by simp [stockTotal, hl]]
            push_cast at hcntQ hbound hroom ⊢
            linarith
          · have hcnt := encCount_insertD_ne_le s.covered_calls s.covered_calls.length
              ⟨t, some e2, Int.fdiv ((e2 : Int) * 1440 - (now : Int)) 1440,
               strike, prem, now / 1440⟩ t2 (fun hc => ht (by exact hc.symm))
            have hcntQ : ((100 * encCount (insertD s.covered_calls s.covered_calls.length
                ⟨t, some e2, Int.fdiv ((e2 : Int) * 1440 - (now : Int)) 1440,
                 strike, prem, now / 1440⟩) t2 : Nat) : ℚ)
                ≤ ((100 * encCount s.covered_calls t2 : Nat) : ℚ) := by
              exact_mod_cast Nat.mul_le_mul_left 100 hcnt
            exact le_trans hcntQ (hg.2 t2)

theorem goodState_manual_call_away (s s2 : PState) (cid : Nat) (hg : GoodState s)
    (h : manual_call_away s cid = .ok s2) : GoodState s2 := by
  unfold manual_call_away at h
  split at h
  · cases h
  · rename_i call hcall
    split at h
    · cases h
    · rename_i pos hl
      split at h
      · cases h
      · rename_i hsh
        push_neg at hsh
        dsimp only at h
        injection h with h
        subst h
        exact ⟨nodup_keysD_eraseD _ _ hg.1,
          encOK_exercise s.stocks s.covered_calls cid call pos _ hg.2
            (lookupD_mem _ _ _ hcall) hl hsh rfl⟩

theorem goodState_remove_covered_call (s : PState) (cid : Nat) (hg : GoodState s) :
    GoodState (remove_covered_call s cid) :=
  ⟨nodup_keysD_eraseD _ _ hg.1, encOK_eraseD_cc _ _ _ hg.2⟩

theorem goodState_add_dividend (s s2 : PState) (t : String) (e p : Option Nat) (q : ℚ)
    (hg : GoodState s) (h : add_dividend s t e p q = .ok s2) : GoodState s2 := by
  unfold add_dividend at h
  split at h
  · cases h
  · split at h
    · split at h
      · cases h
      · dsimp only at h
        injection h with h
        subst h
        exact goodState_of_eq s _ hg rfl rfl
    · cases h

theorem goodState_remove_dividend (s : PState) (did : Nat) (hg : GoodState s) :
    GoodState (remove_dividend s did) :=
  goodState_of_eq s _ hg rfl rfl

theorem goodState_add_cash (s s2 : PState) (a : ℚ) (hg : GoodState s)
    (h : add_cash s a = .ok s2) : GoodState s2 := by
  unfold add_cash at h
  split at h
  · cases h
  · injection h with h
    subst h
    exact goodState_of_eq s _ hg rfl rfl

theorem goodState_remove_cash (s s2 : PState) (a : ℚ) (hg : GoodState s)
    (h : remove_cash s a = .ok s2) : GoodState s2 := by
  unfold remove_cash at h
  split at h
  · cases h
  · split at h
    · cases h
    · injection h with h
      subst h
      exact goodState_of_eq s _ hg rfl rfl

/-! The three dividend procedures never touch positions or contracts. -/

theorem processDividend_frame (now : Nat) (acc : PState × List Note)
    (e : Nat × Dividend) :
    (processDividend now acc e).1.stocks = acc.1.stocks ∧
    (processDividend now acc e).1.covered_calls = acc.1.covered_calls := by
  obtain ⟨st, notes⟩ := acc
  obtain ⟨did, d⟩ := e
  rcases hex : d.ex_div_date with _ | ex
  · rw [processDividend_invalid now st notes did d (Or.inl hex)]
    exact ⟨rfl, rfl⟩
  · rcases hpay : d.payment_date with _ | pay
    · rw [processDividend_invalid now st notes did d (Or.inr hpay)]
      exact ⟨rfl, rfl⟩
    · by_cases hdue : now / 1440 ≥ pay ∧ d.status = "pending"
      · rcases hl : lookupD st.stocks d.ticker with _ | pos
        · rw [processDividend_ineligible_noshares now st notes did d ex pay hex hpay
            hdue.1 hdue.2 hl]
          exact ⟨rfl, rfl⟩
        · rcases hpd : pos.purchase_date with _ | pd
          · rw [processDividend_purchase_invalid now st notes did d ex pay pos hex hpay
              hdue.1 hdue.2 hl hpd]
            exact ⟨rfl, rfl⟩
          · by_cases hlt : pd < ex
            · rw [processDividend_paid now st notes did d ex pay pos pd hex hpay
                hdue.1 hdue.2 hl hpd hlt]
              exact ⟨rfl, rfl⟩
            · rw [processDividend_ineligible_purchase now st notes did d ex pay pos pd
                hex hpay hdue.1 hdue.2 hl hpd hlt]
              exact ⟨rfl, rfl⟩
      · rw [processDividend_notdue now st notes did d ex pay hex hpay hdue]
        exact ⟨rfl, rfl⟩

theorem foldl_processDividend_frame (now : Nat) (L : List (Nat × Dividend))
    (acc : PState × List Note) :
    (L.foldl (processDividend now) acc).1.stocks = acc.1.stocks ∧
    (L.foldl (processDividend now) acc).1.covered_calls = acc.1.covered_calls := by
  induction L generalizing acc with
  | nil => exact ⟨rfl, rfl⟩
  | cons x rest ih =>
    simp only [List.foldl_cons]
    have h1 := processDividend_frame now acc x
    have h2 := ih (processDividend now acc x)
    exact ⟨h2.1.trans h1.1, h2.2.trans h1.2⟩

theorem check_dividend_payments_frame (now : Nat) (s : PState) :
    (check_dividend_payments now s).1.stocks = s.stocks ∧
    (check_dividend_payments now s).1.covered_calls = s.covered_calls :=
  foldl_processDividend_frame now s.dividends (s, [])

theorem processUpcoming_frame (mkt : Market) (now : Nat) (acc : PState × List Note)
    (t : String) :
    (processUpcoming mkt now acc t).1.stocks = acc.1.stocks ∧
    (processUpcoming mkt now acc t).1.covered_calls = acc.1.covered_calls := by
  obtain ⟨st, notes⟩ := acc
  rcases hx : mkt.exDivDate t with _ | e
  · simp only [processUpcoming, hx]
    constructor <;> trivial
  · rcases hr : mkt.divRate t with _ | rate
    · simp only [processUpcoming, hx, hr]
      constructor <;> trivial
    · simp only [processUpcoming, hx, hr]
      by_cases h0 : rate = 0
      · simp only [if_pos h0]
        constructor <;> trivial
      · simp only [if_neg h0]
        by_cases htr : ¬ upcomingTracked st.dividends t e ∧ e ≥ now / 1440
        · simp only [if_pos htr]
          constructor <;> trivial
        · simp only [if_neg htr]
          constructor <;> trivial

theorem foldl_processUpcoming_frame (mkt : Market) (now : Nat) (ts : List String)
    (acc : PState × List Note) :
    ((ts.foldl (processUpcoming mkt now) acc)).1.stocks = acc.1.stocks ∧
    ((ts.foldl (processUpcoming mkt now) acc)).1.covered_calls = acc.1.covered_calls := by
  induction ts generalizing acc with
  | nil => constructor <;> trivial
  | cons t rest ih =>
    simp only [List.foldl_cons]
    have h1 := processUpcoming_frame mkt now acc t
    have h2 := ih (processUpcoming mkt now acc t)
    exact ⟨h2.1.trans h1.1, h2.2.trans h1.2⟩

theorem fetch_upcoming_dividends_frame (mkt : Market) (now : Nat) (s : PState) :
    (fetch_upcoming_dividends mkt now s).1.stocks = s.stocks ∧
    (fetch_upcoming_dividends mkt now s).1.covered_calls = s.covered_calls :=
  foldl_processUpcoming_frame mkt now (s.stocks.map Prod.fst) (s, [])

theorem processHistPayments_frame (now : Nat) (t : String) (L : List (Nat × ℚ))
    (acc : PState × List Note) :
    (processHistPayments now t L acc).1.stocks = acc.1.stocks ∧
    (processHistPayments now t L acc).1.covered_calls = acc.1.covered_calls := by
  induction L generalizing acc with
  | nil => constructor <;> trivial
  | cons x rest ih =>
    obtain ⟨d, amt⟩ := x
    obtain ⟨st, notes⟩ := acc
    rcases hl : lookupD st.stocks t with _ | pos
    · simp only [processHistPayments, hl]
      constructor <;> trivial
    · rcases hpd : pos.purchase_date with _ | pd
      · simp only [processHistPayments, hl, hpd]
        constructor <;> trivial
      · by_cases hq : pd < d ∧ d ≤ now / 1440
        · rcases hscan : histScan st.dividends t d with _ | _ | _
          · simp only [processHistPayments, hl, hpd, if_pos hq, hscan]
            first
            | exact ih (st, notes)
            | trivial
          · simp only [processHistPayments, hl, hpd, if_pos hq, hscan]
            have h2 := ih ({ st with
              cash_balance := st.cash_balance + pos.shares * amt,
              dividends := insertD st.dividends st.dividends.length
                ⟨t, some (d - 3), some d, amt, "paid"⟩ },
              notes ++ [Note.historicalCredited t (pos.shares * amt)])
            first
            | exact ⟨h2.1, h2.2⟩
            | trivial
          · simp only [processHistPayments, hl, hpd, if_pos hq, hscan]
            constructor <;> trivial
        · simp only [processHistPayments, hl, hpd, if_neg hq]
          exact ih (st, notes)

theorem foldl_hist_frame (mkt : Market) (now : Nat) (ts : List String)
    (acc : PState × List Note) :
    ((ts.foldl (fun acc2 t => processHistPayments now t
        ((mkt.history t).filter (fun p => now / 1440 - 180 ≤ p.1)) acc2) acc)).1.stocks
      = acc.1.stocks ∧
    ((ts.foldl (fun acc2 t => processHistPayments now t
        ((mkt.history t).filter (fun p => now / 1440 - 180 ≤ p.1)) acc2) acc)).1.covered_calls
      = acc.1.covered_calls := by
  induction ts generalizing acc with
  | nil => exact ⟨rfl, rfl⟩
  | cons t rest ih =>
    simp only [List.foldl_cons]
    have h1 := processHistPayments_frame now t
      ((mkt.history t).filter (fun p => now / 1440 - 180 ≤ p.1)) acc
    have h2 := ih (processHistPayments now t
      ((mkt.history t).filter (fun p => now / 1440 - 180 ≤ p.1)) acc)
    exact ⟨h2.1.trans h1.1, h2.2.trans h1.2⟩

theorem check_historical_dividends_frame (mkt : Market) (now : Nat) (s : PState) :
    (check_historical_dividends mkt now s).1.stocks = s.stocks ∧
    (check_historical_dividends mkt now s).1.covered_calls = s.covered_calls :=
  foldl_hist_frame mkt now (s.stocks.map Prod.fst) (s, [])

/-! The expiry sweep preserves the share-conservation invariant. -/

theorem goodState_erase_cc (st : PState) (cid : Nat) (hg : GoodState st) :
    GoodState { st with covered_calls := eraseD st.covered_calls cid } :=
  ⟨nodup_keysD_eraseD _ _ hg.1, encOK_eraseD_cc _ _ _ hg.2⟩

theorem lookupD_of_mem_nodup {κ α : Type} [DecidableEq κ] (m : Dict κ α)
    (hnd : (keysD m).Nodup) (k : κ) (v : α) (hm : (k, v) ∈ m) :
    lookupD m k = some v := by
  induction m with
  | nil => cases hm
  | cons p rest ih =>
    simp only [keysD, List.map_cons, List.nodup_cons] at hnd
    rcases List.mem_cons.mp hm with he | hrest
    · rw [← he]
      simp [lookupD]
    · have hk : p.1 ≠ k := by
        intro hc
        apply hnd.1
        rw [hc]
        exact List.mem_map_of_mem Prod.fst hrest
      simp only [lookupD, if_neg hk]
      exact ih hnd.2 hrest

theorem goodState_expiry_fold (mkt : Market) (now : Nat) :
    ∀ (L : List (Nat × CoveredCall)) (st : PState) (notes : List Note),
      GoodState st →
      (∀ e ∈ L, lookupD st.covered_calls e.1 = some e.2) →
      (L.map Prod.fst).Nodup →
      GoodState (L.foldl (processCall mkt now) (st, notes)).1 := by
  intro L
  induction L with
  | nil =>
    intro st notes hg _ _
    exact hg
  | cons x rest ih =>
    intro st notes hg hlk hnd
    obtain ⟨cid, call⟩ := x
    simp only [List.foldl_cons]
    have hlk0 : lookupD st.covered_calls cid = some call :=
      hlk (cid, call) (List.mem_cons_self _ _)
    have hndrest : (rest.map Prod.fst).Nodup := (List.nodup_cons.mp hnd).2
    have hcidnot : cid ∉ rest.map Prod.fst := (List.nodup_cons.mp hnd).1
    have hlk2 : ∀ e2 ∈ rest, lookupD (eraseD st.covered_calls cid) e2.1 = some e2.2 := by
      intro e2 he2
      have hne : e2.1 ≠ cid := fun hc => hcidnot (hc ▸ List.mem_map_of_mem Prod.fst he2)
      rw [lookupD_eraseD_ne _ _ _ hne]
      exact hlk e2 (List.mem_cons_of_mem _ he2)
    rcases hexp : call.exp_date with _ | e
    · rw [processCall_invalid mkt now st notes cid call hexp]
      exact ih _ _ (goodState_erase_cc st cid hg) hlk2 hndrest
    · by_cases hdue : now ≥ e * 1440 + 900
      · by_cases hitm : mkt.price call.ticker ≥ call.strike_price + 1 / 100
        · rcases hl : lookupD st.stocks call.ticker with _ | pos
          · rw [processCall_shortfall_none mkt now st notes cid call e hexp hdue hitm hl]
            exact ih _ _ (goodState_erase_cc st cid hg) hlk2 hndrest
          · by_cases hsh : pos.shares ≥ 100
            · rw [processCall_exercised mkt now st notes cid call e pos hexp hdue hitm hl hsh]
              refine ih _ _ ⟨nodup_keysD_eraseD _ _ hg.1, ?_⟩ hlk2 hndrest
              exact encOK_exercise st.stocks st.covered_calls cid call pos _ hg.2
                (lookupD_mem _ _ _ hlk0) hl hsh rfl
            · rw [processCall_shortfall_some mkt now st notes cid call e pos hexp hdue
                hitm hl hsh]
              exact ih _ _ (goodState_erase_cc st cid hg) hlk2 hndrest
        · rw [processCall_worthless mkt now st notes cid call e hexp hdue hitm]
          exact ih _ _ (goodState_erase_cc st cid hg) hlk2 hndrest
      · rw [processCall_notdue mkt now st notes cid call e hexp hdue]
        exact ih st notes hg (fun e2 he2 => hlk e2 (List.mem_cons_of_mem _ he2)) hndrest

theorem goodState_check_expired_options (mkt : Market) (now : Nat) (s : PState)
    (hg : GoodState s) : GoodState (check_expired_options mkt now s).1 := by
  apply goodState_expiry_fold mkt now s.covered_calls s [] hg
  · intro e he
    exact lookupD_of_mem_nodup s.covered_calls hg.1 e.1 e.2 he
  · exact hg.1

/-! Every reachable state satisfies the invariant, giving claim C1. -/

theorem reachable_goodState (s : PState) (hr : Reachable s) : GoodState s := by
  induction hr with
  | init =>
    constructor
    · simp [keysD]
    · intro t
      simp [encCount, stockTotal, lookupD]
  | buy s s2 t sh pr pd hr h ih => exact goodState_add_stock s s2 t sh pr pd ih h
  | sell s s2 mkt t q hr h ih => exact goodState_remove_stock s s2 mkt t q ih h
  | openCall s s2 t e strike prem now hr h ih =>
    exact goodState_add_covered_call s s2 t e strike prem now ih h
  | closeCall s cid hr ih => exact goodState_remove_covered_call s cid ih
  | exercise s s2 cid hr h ih => exact goodState_manual_call_away s s2 cid ih h
  | cashIn s s2 a hr h ih => exact goodState_add_cash s s2 a ih h
  | cashOut s s2 a hr h ih => exact goodState_remove_cash s s2 a ih h
  | divAdd s s2 t e p q hr h ih => exact goodState_add_dividend s s2 t e p q ih h
  | divRemove s did hr ih => exact goodState_remove_dividend s did ih
  | sweepExpiry s mkt now hr ih => exact goodState_check_expired_options mkt now s ih
  | sweepHist s mkt now hr ih =>
    exact goodState_of_eq s _ ih (check_historical_dividends_frame mkt now s).1
      (check_historical_dividends_frame mkt now s).2
  | sweepUpcoming s mkt now hr ih =>
    exact goodState_of_eq s _ ih (fetch_upcoming_dividends_frame mkt now s).1
      (fetch_upcoming_dividends_frame mkt now s).2
  | sweepPayments s now hr ih =>
    exact goodState_of_eq s _ ih (check_dividend_payments_frame now s).1
      (check_dividend_payments_frame now s).2

/-- C1: in every reachable ledger state, for every ticker,
`availableShares(t) + encumberedShares(t) = totalShares(t)`: the available
shares (`get_available_shares`, the max with 0 of held minus encumbered)
plus the encumbered shares (100 per open contract on the ticker,
`get_shares_in_contracts`) are exactly the held shares. -/
theorem C1_share_conservation (s : PState) (hr : Reachable s) (t : String) :
    get_available_shares s t + (get_shares_in_contracts s t : ℚ) = totalShares s t := by
  have hg := reachable_goodState s hr
  have hb := hg.2 t
  rcases hl : lookupD s.stocks t with _ | pos
  · rw [show totalShares s t = 0 by simp [totalShares, stockTotal, hl]]
    rw [show get_available_shares s t = 0 by simp [get_available_shares, hl]]
    rw [show stockTotal s.stocks t = 0 by simp [stockTotal, hl]] at hb
    have hnn := encCount_nonneg s.covered_calls t
    have hz : ((100 * encCount s.covered_calls t : Nat) : ℚ) = 0 := le_antisymm hb hnn
    rw [show ((get_shares_in_contracts s t : Nat) : ℚ)
        = ((100 * encCount s.covered_calls t : Nat) : ℚ) from rfl, hz]
    ring
  · rw [show totalShares s t = pos.shares by simp [totalShares, stockTotal, hl]]
    rw [show stockTotal s.stocks t = pos.shares by simp [stockTotal, hl]] at hb
    rw [show get_available_shares s t
        = max 0 (pos.shares - ((100 * encCount s.covered_calls t : Nat) : ℚ)) by
      simp [get_available_shares, hl, get_shares_in_contracts]]
    rw [max_eq_right (by linarith)]
    rw [show ((get_shares_in_contracts s t : Nat) : ℚ)
        = ((100 * encCount s.covered_calls t : Nat) : ℚ) from rfl]
    ring

/-- Witness for C1 at a concrete reachable state: deposit 100 cash, then
buy one share of A at 10; the conservation equation holds for A. -/
theorem C1_share_conservation_witness :
    get_available_shares ⟨[("A", ⟨1, 10, some 1⟩)], [], [], 90⟩ "A"
      + (get_shares_in_contracts ⟨[("A", ⟨1, 10, some 1⟩)], [], [], 90⟩ "A" : ℚ)
      = totalShares ⟨[("A", ⟨1, 10, some 1⟩)], [], [], 90⟩ "A" := by
  have hstep1 : add_cash ⟨[], [], [], 0⟩ 100 = Except.ok ⟨[], [], [], 100⟩ := by
    norm_num [add_cash]
  have hstep2 : add_stock ⟨[], [], [], 100⟩ "A" 1 10 (some 1)
      = Except.ok ⟨[("A", ⟨1, 10, some 1⟩)], [], [], 90⟩ := by
    have hA : ¬(("A" : String) = "") := by decide
    norm_num [add_stock, lookupD, insertD, hA]
  exact C1_share_conservation ⟨[("A", ⟨1, 10, some 1⟩)], [], [], 90⟩
    (Reachable.buy ⟨[], [], [], 100⟩ _ "A" 1 10 (some 1)
      (Reachable.cashIn ⟨[], [], [], 0⟩ _ 100 Reachable.init hstep1) hstep2) "A"

/-! Claim C8: idempotence of the reconciliation sweep. -/

/-- C8 counterexample: the sweep is not idempotent.  On a reachable state
whose dividend ids are 0 and 2 (entry 1 was removed), with a tracked marker
for the historical payment on day 100 stored under id 2, the first sweep
discovers the untracked payment on day 110 and stores it under the
generated id `div_2` — overwriting the marker for day 100.  The second
sweep therefore re-discovers day 100 (and overwrites the day-110 marker in
turn), producing a non-empty notice list: two fresh credits, with no
elapsed time and no new provider data. -/
theorem C8_sweep_not_idempotent :
    (startup_sweep
        ⟨fun _ => 0, fun _ => none, fun _ => none,
         fun t => if t = "X" then [(100, 1), (110, 1)] else []⟩ 288000
      ((startup_sweep
        ⟨fun _ => 0, fun _ => none, fun _ => none,
         fun t => if t = "X" then [(100, 1), (110, 1)] else []⟩ 288000
        ⟨[("X", ⟨10, 20, some 50⟩)], [],
         [(0, ⟨"Z", some 1, some 2, 1, "paid"⟩),
          (2, ⟨"X", some 97, some 100, 1, "paid"⟩)], 0⟩).1)).2
      = [Note.historicalCredited "X" 10, Note.historicalCredited "X" 10] := by
  norm_num +decide [startup_sweep, check_expired_options, check_historical_dividends,
    processHistPayments, histScan, fetch_upcoming_dividends, processUpcoming,
    check_dividend_payments, processDividend, lookupD, insertD, eraseD,
    List.filter_cons, List.filter_nil]

/-! Structural lemmas for the idempotence argument. -/

theorem mem_eraseD {κ α : Type} [DecidableEq κ] (m : Dict κ α) (k : κ) (p : κ × α)
    (h : p ∈ eraseD m k) : p ∈ m := by
  induction m with
  | nil => simp [eraseD] at h
  | cons q rest ih =>
    by_cases hq : q.1 = k
    · simp only [eraseD, if_pos hq] at h
      exact List.mem_cons_of_mem _ (ih h)
    · simp only [eraseD, if_neg hq] at h
      rcases List.mem_cons.mp h with he | hrest
      · exact he ▸ List.mem_cons_self _ _
      · exact List.mem_cons_of_mem _ (ih hrest)

theorem mem_insertD {κ α : Type} [DecidableEq κ] (m : Dict κ α) (k : κ) (v : α)
    (p : κ × α) (h : p ∈ insertD m k v) : p ∈ m ∨ p = (k, v) := by
  induction m with
  | nil =>
    simp only [insertD] at h
    exact Or.inr (List.mem_singleton.mp h)
  | cons q rest ih =>
    by_cases hq : q.1 = k
    · simp only [insertD, if_pos hq] at h
      rcases List.mem_cons.mp h with he | hrest
      · exact Or.inr he
      · exact Or.inl (List.mem_cons_of_mem _ hrest)
    · simp only [insertD, if_neg hq] at h
      rcases List.mem_cons.mp h with he | hrest
      · exact Or.inl (he ▸ List.mem_cons_self _ _)
      · rcases ih hrest with h2 | h2
        · exact Or.inl (List.mem_cons_of_mem _ h2)
        · exact Or.inr h2

theorem mem_insertD_strong {κ α : Type} [DecidableEq κ] (m : Dict κ α) (k : κ) (v : α)
    (hnd : (keysD m).Nodup) (p : κ × α) (h : p ∈ insertD m k v) :
    (p ∈ m ∧ p.1 ≠ k) ∨ p = (k, v) := by
  induction m with
  | nil =>
    simp only [insertD] at h
    exact Or.inr (List.mem_singleton.mp h)
  | cons q rest ih =>
    simp only [keysD, List.map_cons, List.nodup_cons] at hnd
    by_cases hq : q.1 = k
    · simp only [insertD, if_pos hq] at h
      rcases List.mem_cons.mp h with he | hrest
      · exact Or.inr he
      · refine Or.inl ⟨List.mem_cons_of_mem _ hrest, ?_⟩
        intro hc
        apply hnd.1
        rw [hq, ← hc]
        exact List.mem_map_of_mem Prod.fst hrest
    · simp only [insertD, if_neg hq] at h
      rcases List.mem_cons.mp h with he | hrest
      · exact Or.inl ⟨he ▸ List.mem_cons_self _ _, he ▸ hq⟩
      · rcases ih hnd.2 hrest with h2 | h2
        · exact Or.inl ⟨List.mem_cons_of_mem _ h2.1, h2.2⟩
        · exact Or.inr h2

theorem mem_insertD_of_mem_ne {κ α : Type} [DecidableEq κ] (m : Dict κ α) (k : κ)
    (v : α) (p : κ × α) (hp : p ∈ m) (hne : p.1 ≠ k) : p ∈ insertD m k v := by
  induction m with
  | nil => cases hp
  | cons q rest ih =>
    by_cases hq : q.1 = k
    · simp only [insertD, if_pos hq]
      rcases List.mem_cons.mp hp with he | hrest
      · exact absurd (he ▸ hq : p.1 = k) hne
      · exact List.mem_cons_of_mem _ hrest
    · simp only [insertD, if_neg hq]
      rcases List.mem_cons.mp hp with he | hrest
      · exact he ▸ List.mem_cons_self _ _
      · exact List.mem_cons_of_mem _ (ih hrest)

theorem lookupD_isSome_of_mem_keys {κ α : Type} [DecidableEq κ] (m : Dict κ α) (k : κ)
    (h : k ∈ keysD m) : ∃ v, lookupD m k = some v := by
  induction m with
  | nil => simp [keysD] at h
  | cons q rest ih =>
    by_cases hq : q.1 = k
    · exact ⟨q.2, by simp [lookupD, hq]⟩
    · simp only [keysD, List.map_cons, List.mem_cons] at h
      rcases h with he | hrest
      · exact absurd he.symm hq
      · obtain ⟨v, hv⟩ := ih hrest
        exact ⟨v, by simp [lookupD, hq, hv]⟩

theorem insertD_eq_append {κ α : Type} [DecidableEq κ] (m : Dict κ α) (k : κ) (v : α)
    (h : k ∉ keysD m) : insertD m k v = m ++ [(k, v)] := by
  induction m with
  | nil => simp [insertD]
  | cons q rest ih =>
    simp only [keysD, List.map_cons, List.mem_cons] at h
    push_neg at h
    have hqk : ¬ q.1 = k := fun hc => h.1 hc.symm
    simp only [insertD, if_neg hqk, List.cons_append]
    rw [ih h.2]

theorem keysD_insertD_mem {κ α : Type} [DecidableEq κ] (m : Dict κ α) (k : κ) (v : α)
    (h : k ∈ keysD m) : keysD (insertD m k v) = keysD m := by
  induction m with
  | nil => simp [keysD] at h
  | cons q rest ih =>
    by_cases hq : q.1 = k
    · simp [insertD, if_pos hq, keysD, hq]
    · simp only [keysD, List.map_cons, List.mem_cons] at h
      rcases h with he | hrest
      · exact absurd he.symm hq
      · simp only [insertD, if_neg hq, keysD, List.map_cons]
        rw [show List.map Prod.fst (insertD rest k v) = List.map Prod.fst rest from
          ih hrest]

theorem keysD_coreOf (dv : Dict Nat Dividend) :
    keysD dv = (coreOf dv).map Prod.fst := by
  induction dv with
  | nil => rfl
  | cons p rest ih =>
    simp only [keysD, coreOf, List.map_cons] at *
    rw [ih]

theorem coreOf_insertD_status (m : Dict Nat Dividend) (k : Nat) (d v : Dividend)
    (hl : lookupD m k = some d) (ht : v.ticker = d.ticker)
    (hex : v.ex_div_date = d.ex_div_date) (hpay : v.payment_date = d.payment_date)
    (hper : v.dividend_per_share = d.dividend_per_share) :
    coreOf (insertD m k v) = coreOf m := by
  induction m with
  | nil => simp [lookupD] at hl
  | cons q rest ih =>
    by_cases hq : q.1 = k
    · simp only [lookupD, if_pos hq] at hl
      injection hl with hl
      simp only [insertD, if_pos hq, coreOf, List.map_cons]
      congr 1
      simp [hq, ← hl, ht, hex, hpay, hper]
    · simp only [lookupD, if_neg hq] at hl
      simp only [insertD, if_neg hq, coreOf, List.map_cons]
      rw [show (insertD rest k v).map (fun p => (p.1, p.2.ticker, p.2.ex_div_date,
        p.2.payment_date, p.2.dividend_per_share)) = coreOf (insertD rest k v) from rfl]
      rw [ih hl]
      rfl

theorem histTracked_of_coreOf_eq (dv1 dv2 : Dict Nat Dividend) (t : String) (d : Nat)
    (h : coreOf dv1 = coreOf dv2) (ht : HistTracked dv1 t d) : HistTracked dv2 t d := by
  obtain ⟨p, hp, hpt, e, hpe, hle⟩ := ht
  have hmem : (p.1, p.2.ticker, p.2.ex_div_date, p.2.payment_date,
      p.2.dividend_per_share) ∈ coreOf dv2 := by
    rw [← h]
    exact List.mem_map_of_mem _ hp
  obtain ⟨q, hq, heq⟩ := List.mem_map.mp hmem
  simp only [Prod.mk.injEq] at heq
  exact ⟨q, hq, heq.2.1.trans hpt, e, heq.2.2.1.trans hpe, hle⟩

theorem upcomingTracked_of_coreOf_eq (dv1 dv2 : Dict Nat Dividend) (t : String)
    (e : Nat) (h : coreOf dv1 = coreOf dv2) (ht : upcomingTracked dv1 t e) :
    upcomingTracked dv2 t e := by
  obtain ⟨p, hp, hpt, hpe⟩ := ht
  have hmem : (p.1, p.2.ticker, p.2.ex_div_date, p.2.payment_date,
      p.2.dividend_per_share) ∈ coreOf dv2 := by
    rw [← h]
    exact List.mem_map_of_mem _ hp
  obtain ⟨q, hq, heq⟩ := List.mem_map.mp hmem
  simp only [Prod.mk.injEq] at heq
  exact ⟨q, hq, heq.2.1.trans hpt, heq.2.2.1.trans hpe⟩

theorem histTracked_mono (dv1 dv2 : Dict Nat Dividend) (t : String) (d : Nat)
    (hsub : ∀ p ∈ dv1, p ∈ dv2) (ht : HistTracked dv1 t d) : HistTracked dv2 t d := by
  obtain ⟨p, hp, rest⟩ := ht
  exact ⟨p, hsub p hp, rest⟩

theorem upcomingTracked_mono (dv1 dv2 : Dict Nat Dividend) (t : String) (e : Nat)
    (hsub : ∀ p ∈ dv1, p ∈ dv2) (ht : upcomingTracked dv1 t e) :
    upcomingTracked dv2 t e := by
  obtain ⟨p, hp, rest⟩ := ht
  exact ⟨p, hsub p hp, rest⟩

theorem contig_nodup (dv : Dict Nat Dividend) (h : ContigKeys dv) :
    (keysD dv).Nodup := by
  rw [h]
  exact List.nodup_range _

theorem contig_len_not_mem (dv : Dict Nat Dividend) (h : ContigKeys dv) :
    dv.length ∉ keysD dv := by
  rw [h]
  simp [List.mem_range]

theorem contig_insert (dv : Dict Nat Dividend) (v : Dividend) (h : ContigKeys dv) :
    ContigKeys (insertD dv dv.length v) := by
  rw [insertD_eq_append _ _ _ (contig_len_not_mem dv h)]
  unfold ContigKeys at *
  simp only [keysD, List.map_append, List.length_append, List.map_cons, List.map_nil,
    List.length_cons, List.length_nil]
  rw [show keysD dv = List.map Prod.fst dv from rfl] at h
  rw [h, List.range_succ]

theorem contig_insert_mem (dv : Dict Nat Dividend) (v : Dividend) (h : ContigKeys dv) :
    ∀ p ∈ dv, p ∈ insertD dv dv.length v := by
  intro p hp
  rw [insertD_eq_append _ _ _ (contig_len_not_mem dv h)]
  exact List.mem_append_left _ hp

theorem parsableDivs_insertD (dv : Dict Nat Dividend) (k : Nat) (v : Dividend)
    (h : ParsableDivs dv) (hv : v.ex_div_date ≠ none ∧ v.payment_date ≠ none) :
    ParsableDivs (insertD dv k v) := by
  intro p hp
  rcases mem_insertD dv k v p hp with h2 | h2
  · exact h p h2
  · rw [h2]
    exact hv

theorem histScan_tracked_iff (dv : Dict Nat Dividend) (t : String) (d : Nat)
    (hp : ParsableDivs dv) : histScan dv t d = .tracked ↔ HistTracked dv t d := by
  induction dv with
  | nil =>
    simp only [histScan, HistTracked]
    constructor
    · intro h
      cases h
    · intro ⟨p, hp2, _⟩
      cases hp2
  | cons p rest ih =>
    have hrest : ParsableDivs rest := fun q hq => hp q (List.mem_cons_of_mem _ hq)
    by_cases hpt : p.2.ticker = t
    · rcases hpe : p.2.ex_div_date with _ | e
      · exact absurd hpe (hp p (List.mem_cons_self _ _)).1
      · by_cases hle : ((e : Int) - (d : Int)).natAbs ≤ 5
        · simp only [histScan, if_pos hpt, hpe, if_pos hle]
          constructor
          · intro _
            exact ⟨p, List.mem_cons_self _ _, hpt, e, hpe, hle⟩
          · intro _
            trivial
        · simp only [histScan, if_pos hpt, hpe, if_neg hle]
          rw [ih hrest]
          constructor
          · intro ⟨q, hq, rest2⟩
            exact ⟨q, List.mem_cons_of_mem _ hq, rest2⟩
          · intro ⟨q, hq, hqt, e2, hqe, hqle⟩
            rcases List.mem_cons.mp hq with he | hq2
            · exfalso
              rw [he] at hqe
              rw [hqe] at hpe
              injection hpe with hpe
              rw [← hpe] at hle
              exact hle hqle
            · exact ⟨q, hq2, hqt, e2, hqe, hqle⟩
    · simp only [histScan, if_neg hpt]
      rw [ih hrest]
      constructor
      · intro ⟨q, hq, rest2⟩
        exact ⟨q, List.mem_cons_of_mem _ hq, rest2⟩
      · intro ⟨q, hq, hqt, rest2⟩
        rcases List.mem_cons.mp hq with he | hq2
        · exact absurd (he ▸ hqt) hpt
        · exact ⟨q, hq2, hqt, rest2⟩

theorem histScan_ne_parseFail (dv : Dict Nat Dividend) (t : String) (d : Nat)
    (hp : ParsableDivs dv) : histScan dv t d ≠ .parseFail := by
  induction dv with
  | nil =>
    intro h
    cases h
  | cons p rest ih =>
    have hrest : ParsableDivs rest := fun q hq => hp q (List.mem_cons_of_mem _ hq)
    by_cases hpt : p.2.ticker = t
    · rcases hpe : p.2.ex_div_date with _ | e
      · exact absurd hpe (hp p (List.mem_cons_self _ _)).1
      · by_cases hle : ((e : Int) - (d : Int)).natAbs ≤ 5
        · simp only [histScan, if_pos hpt, hpe, if_pos hle]
          intro h
          cases h
        · simp only [histScan, if_pos hpt, hpe, if_neg hle]
          exact ih hrest
    · simp only [histScan, if_neg hpt]
      exact ih hrest

/-! The expiry sweep: a second run right after a first one is a no-op. -/

theorem mem_eraseD_ne {κ α : Type} [DecidableEq κ] (m : Dict κ α) (k : κ) (p : κ × α)
    (h : p ∈ eraseD m k) : p.1 ≠ k := by
  induction m with
  | nil => simp [eraseD] at h
  | cons q rest ih =>
    by_cases hq : q.1 = k
    · simp only [eraseD, if_pos hq] at h
      exact ih h
    · simp only [eraseD, if_neg hq] at h
      rcases List.mem_cons.mp h with he | hrest
      · exact he ▸ hq
      · exact ih hrest

theorem processCall_dividends (mkt : Market) (now : Nat) (acc : PState × List Note)
    (x : Nat × CoveredCall) :
    (processCall mkt now acc x).1.dividends = acc.1.dividends := by
  obtain ⟨st, notes⟩ := acc
  obtain ⟨cid, call⟩ := x
  rcases hexp : call.exp_date with _ | e
  · rw [processCall_invalid mkt now st notes cid call hexp]
  · by_cases hdue : now ≥ e * 1440 + 900
    · by_cases hitm : mkt.price call.ticker ≥ call.strike_price + 1 / 100
      · rcases hl : lookupD st.stocks call.ticker with _ | pos
        · rw [processCall_shortfall_none mkt now st notes cid call e hexp hdue hitm hl]
        · by_cases hsh : pos.shares ≥ 100
          · rw [processCall_exercised mkt now st notes cid call e pos hexp hdue hitm hl hsh]
          · rw [processCall_shortfall_some mkt now st notes cid call e pos hexp hdue hitm hl hsh]
      · rw [processCall_worthless mkt now st notes cid call e hexp hdue hitm]
    · rw [processCall_notdue mkt now st notes cid call e hexp hdue]

theorem foldl_processCall_dividends (mkt : Market) (now : Nat)
    (L : List (Nat × CoveredCall)) (acc : PState × List Note) :
    (L.foldl (processCall mkt now) acc).1.dividends = acc.1.dividends := by
  induction L generalizing acc with
  | nil => rfl
  | cons x rest ih =>
    simp only [List.foldl_cons]
    exact (ih (processCall mkt now acc x)).trans (processCall_dividends mkt now acc x)

theorem check_expired_options_dividends (mkt : Market) (now : Nat) (s : PState) :
    (check_expired_options mkt now s).1.dividends = s.dividends :=
  foldl_processCall_dividends mkt now s.covered_calls (s, [])

theorem processCall_parsable_stocks (mkt : Market) (now : Nat)
    (acc : PState × List Note) (x : Nat × CoveredCall)
    (h : ParsableStocks acc.1.stocks) :
    ParsableStocks (processCall mkt now acc x).1.stocks := by
  obtain ⟨st, notes⟩ := acc
  obtain ⟨cid, call⟩ := x
  rcases hexp : call.exp_date with _ | e
  · rw [processCall_invalid mkt now st notes cid call hexp]
    exact h
  · by_cases hdue : now ≥ e * 1440 + 900
    · by_cases hitm : mkt.price call.ticker ≥ call.strike_price + 1 / 100
      · rcases hl : lookupD st.stocks call.ticker with _ | pos
        · rw [processCall_shortfall_none mkt now st notes cid call e hexp hdue hitm hl]
          exact h
        · by_cases hsh : pos.shares ≥ 100
          · rw [processCall_exercised mkt now st notes cid call e pos hexp hdue hitm hl hsh]
            intro p hp
            by_cases hz : pos.shares - 100 ≤ 0
            · rw [if_pos hz] at hp
              exact h p (mem_eraseD _ _ _ hp)
            · rw [if_neg hz] at hp
              rcases mem_insertD _ _ _ _ hp with h2 | h2
              · exact h p h2
              · rw [h2]
                exact h (call.ticker, pos) (lookupD_mem _ _ _ hl)
          · rw [processCall_shortfall_some mkt now st notes cid call e pos hexp hdue hitm hl hsh]
            exact h
      · rw [processCall_worthless mkt now st notes cid call e hexp hdue hitm]
        exact h
    · rw [processCall_notdue mkt now st notes cid call e hexp hdue]
      exact h

theorem foldl_processCall_parsable_stocks (mkt : Market) (now : Nat)
    (L : List (Nat × CoveredCall)) (acc : PState × List Note)
    (h : ParsableStocks acc.1.stocks) :
    ParsableStocks (L.foldl (processCall mkt now) acc).1.stocks := by
  induction L generalizing acc with
  | nil => exact h
  | cons x rest ih =>
    simp only [List.foldl_cons]
    exact ih (processCall mkt now acc x) (processCall_parsable_stocks mkt now acc x h)

theorem expiry_fold_establishes_quiet (mkt : Market) (now : Nat) :
    ∀ (L : List (Nat × CoveredCall)) (st : PState) (notes : List Note),
      (∀ p ∈ st.covered_calls, p ∈ L ∨ ccQuiet now p.2) →
      ∀ p ∈ (L.foldl (processCall mkt now) (st, notes)).1.covered_calls,
        ccQuiet now p.2 := by
  intro L
  induction L with
  | nil =>
    intro st notes hinv p hp
    rcases hinv p hp with h2 | h2
    · cases h2
    · exact h2
  | cons x rest ih =>
    intro st notes hinv
    obtain ⟨cid, call⟩ := x
    simp only [List.foldl_cons]
    have herase : ∀ p ∈ eraseD st.covered_calls cid, p ∈ rest ∨ ccQuiet now p.2 := by
      intro p hp
      have hne := mem_eraseD_ne _ _ _ hp
      rcases hinv p (mem_eraseD _ _ _ hp) with h2 | h2
      · rcases List.mem_cons.mp h2 with he | hr
        · exact absurd (congrArg Prod.fst he) hne
        · exact Or.inl hr
      · exact Or.inr h2
    rcases hexp : call.exp_date with _ | e
    · rw [processCall_invalid mkt now st notes cid call hexp]
      exact ih _ _ herase
    · by_cases hdue : now ≥ e * 1440 + 900
      · by_cases hitm : mkt.price call.ticker ≥ call.strike_price + 1 / 100
        · rcases hl : lookupD st.stocks call.ticker with _ | pos
          · rw [processCall_shortfall_none mkt now st notes cid call e hexp hdue hitm hl]
            exact ih _ _ herase
          · by_cases hsh : pos.shares ≥ 100
            · rw [processCall_exercised mkt now st notes cid call e pos hexp hdue hitm hl hsh]
              exact ih _ _ herase
            · rw [processCall_shortfall_some mkt now st notes cid call e pos hexp hdue
                hitm hl hsh]
              exact ih _ _ herase
        · rw [processCall_worthless mkt now st notes cid call e hexp hdue hitm]
          exact ih _ _ herase
      · rw [processCall_notdue mkt now st notes cid call e hexp hdue]
        apply ih
        intro p hp
        rcases hinv p hp with h2 | h2
        · rcases List.mem_cons.mp h2 with he | hr
          · refine Or.inr ⟨e, ?_, ?_⟩
            · rw [he]
              exact hexp
            · omega
          · exact Or.inl hr
        · exact Or.inr h2

theorem check_expired_options_establishes_quiet (mkt : Market) (now : Nat)
    (s : PState) :
    ∀ p ∈ (check_expired_options mkt now s).1.covered_calls, ccQuiet now p.2 :=
  expiry_fold_establishes_quiet mkt now s.covered_calls s []
    (fun p hp => Or.inl hp)

theorem expiry_fold_quiet_noop (mkt : Market) (now : Nat) :
    ∀ (L : List (Nat × CoveredCall)) (st : PState) (notes : List Note),
      (∀ p ∈ L, ccQuiet now p.2) →
      L.foldl (processCall mkt now) (st, notes) = (st, notes) := by
  intro L
  induction L with
  | nil =>
    intro st notes _
    rfl
  | cons x rest ih =>
    intro st notes hq
    obtain ⟨cid, call⟩ := x
    obtain ⟨e, hexp, hlt⟩ := hq (cid, call) (List.mem_cons_self _ _)
    simp only [List.foldl_cons]
    rw [processCall_notdue mkt now st notes cid call e hexp (by omega)]
    exact ih st notes (fun p hp => hq p (List.mem_cons_of_mem _ hp))

theorem check_expired_options_quiet_noop (mkt : Market) (now : Nat) (s : PState)
    (h : ∀ p ∈ s.covered_calls, ccQuiet now p.2) :
    check_expired_options mkt now s = (s, []) :=
  expiry_fold_quiet_noop mkt now s.covered_calls s [] h

/-! The payment sweep: it settles every due pending entry, keeps the
status-independent core of the dividend set, and a second run is a no-op. -/

theorem payments_step_conds (now : Nat) (st : PState) (did : Nat) (d d1 : Dividend)
    (rest : List (Nat × Dividend))
    (hndk : (keysD st.dividends).Nodup)
    (hlk : ∀ p ∈ (did, d) :: rest, lookupD st.dividends p.1 = some p.2)
    (hnd : (((did, d) :: rest).map Prod.fst).Nodup)
    (hinv : ∀ p ∈ st.dividends, p ∈ (did, d) :: rest ∨ divQuiet now p.2)
    (hd1t : d1.ticker = d.ticker) (hd1e : d1.ex_div_date = d.ex_div_date)
    (hd1p : d1.payment_date = d.payment_date)
    (hd1q : d1.dividend_per_share = d.dividend_per_share)
    (hd1s : d1.status ≠ "pending")
    (hdates : d.ex_div_date ≠ none ∧ d.payment_date ≠ none) :
    (∀ p ∈ rest, lookupD (insertD st.dividends did d1) p.1 = some p.2) ∧
    (∀ p ∈ insertD st.dividends did d1, p ∈ rest ∨ divQuiet now p.2) ∧
    (keysD (insertD st.dividends did d1)).Nodup ∧
    coreOf (insertD st.dividends did d1) = coreOf st.dividends := by
  have hlk0 : lookupD st.dividends did = some d := hlk (did, d) (List.mem_cons_self _ _)
  have hdmem : (did, d) ∈ st.dividends := lookupD_mem _ _ _ hlk0
  have hdidmem : did ∈ keysD st.dividends := List.mem_map_of_mem Prod.fst hdmem
  have hcidnot : did ∉ rest.map Prod.fst := (List.nodup_cons.mp hnd).1
  refine ⟨?_, ?_, ?_, ?_⟩
  · intro p hp
    have hne : p.1 ≠ did := fun hc => hcidnot (hc ▸ List.mem_map_of_mem Prod.fst hp)
    rw [lookupD_insertD_ne _ _ _ _ hne]
    exact hlk p (List.mem_cons_of_mem _ hp)
  · intro p hp
    rcases mem_insertD_strong _ _ _ hndk p hp with ⟨hmem, hne⟩ | he
    · rcases hinv p hmem with h2 | h2
      · rcases List.mem_cons.mp h2 with he2 | hr
        · exact absurd (congrArg Prod.fst he2) hne
        · exact Or.inl hr
      · exact Or.inr h2
    · refine Or.inr ⟨⟨?_, ?_⟩, ?_⟩
      · rw [he, hd1e]
        exact hdates.1
      · rw [he, hd1p]
        exact hdates.2
      · intro hpend
        rw [he] at hpend
        exact absurd hpend hd1s
  · rw [keysD_insertD_mem _ _ _ hdidmem]
    exact hndk
  · exact coreOf_insertD_status _ _ _ _ hlk0 hd1t hd1e hd1p hd1q

theorem payments_fold_spec (now : Nat) :
    ∀ (L : List (Nat × Dividend)) (st : PState) (notes : List Note),
      (∀ p ∈ L, lookupD st.dividends p.1 = some p.2) →
      (L.map Prod.fst).Nodup →
      (∀ p ∈ L, p.2.ex_div_date ≠ none ∧ p.2.payment_date ≠ none) →
      (∀ p ∈ st.dividends, p ∈ L ∨ divQuiet now p.2) →
      ParsableStocks st.stocks →
      (keysD st.dividends).Nodup →
      (∀ p ∈ (L.foldl (processDividend now) (st, notes)).1.dividends,
        divQuiet now p.2) ∧
      coreOf (L.foldl (processDividend now) (st, notes)).1.dividends
        = coreOf st.dividends := by
  intro L
  induction L with
  | nil =>
    intro st notes _ _ _ hinv _ _
    refine ⟨?_, rfl⟩
    intro p hp
    rcases hinv p hp with h2 | h2
    · cases h2
    · exact h2
  | cons x rest ih =>
    intro st notes hlk hnd hparse hinv hstocks hndk
    obtain ⟨did, d⟩ := x
    simp only [List.foldl_cons]
    obtain ⟨hexne, hpayne⟩ := hparse (did, d) (List.mem_cons_self _ _)
    rcases hex : d.ex_div_date with _ | ex
    · exact absurd hex hexne
    rcases hpay : d.payment_date with _ | pay
    · exact absurd hpay hpayne
    have hndrest : (rest.map Prod.fst).Nodup := (List.nodup_cons.mp hnd).2
    have hparserest : ∀ p ∈ rest, p.2.ex_div_date ≠ none ∧ p.2.payment_date ≠ none :=
      fun p hp => hparse p (List.mem_cons_of_mem _ hp)
    by_cases hdue : now / 1440 ≥ pay ∧ d.status = "pending"
    · rcases hl : lookupD st.stocks d.ticker with _ | pos
      · rw [processDividend_ineligible_noshares now st notes did d ex pay hex hpay
          hdue.1 hdue.2 hl]
        obtain ⟨hc1, hc2, hc3, hc4⟩ := payments_step_conds now st did d
          ({ d with status := "ineligible" }) rest hndk hlk hnd hinv rfl rfl rfl rfl
          (by simp) ⟨hexne, hpayne⟩
        have hres := ih
          (PState.mk st.stocks st.covered_calls
            (insertD st.dividends did { d with status := "ineligible" })
            st.cash_balance)
          (notes ++ [Note.ineligibleNoShares d.ticker])
          hc1 hndrest hparserest hc2 hstocks hc3
        exact ⟨hres.1, hres.2.trans hc4⟩
      · have hpdne := hstocks (d.ticker, pos) (lookupD_mem _ _ _ hl)
        rcases hpd : pos.purchase_date with _ | pd
        · exact absurd hpd hpdne
        by_cases hlt : pd < ex
        · rw [processDividend_paid now st notes did d ex pay pos pd hex hpay
            hdue.1 hdue.2 hl hpd hlt]
          obtain ⟨hc1, hc2, hc3, hc4⟩ := payments_step_conds now st did d
            ({ d with status := "paid" }) rest hndk hlk hnd hinv rfl rfl rfl rfl
            (by simp) ⟨hexne, hpayne⟩
          have hres := ih
            (PState.mk st.stocks st.covered_calls
              (insertD st.dividends did { d with status := "paid" })
              (st.cash_balance + pos.shares * d.dividend_per_share))
            (notes ++ [Note.dividendPaid d.ticker (pos.shares * d.dividend_per_share)])
            hc1 hndrest hparserest hc2 hstocks hc3
          exact ⟨hres.1, hres.2.trans hc4⟩
        · rw [processDividend_ineligible_purchase now st notes did d ex pay pos pd hex
            hpay hdue.1 hdue.2 hl hpd hlt]
          obtain ⟨hc1, hc2, hc3, hc4⟩ := payments_step_conds now st did d
            ({ d with status := "ineligible" }) rest hndk hlk hnd hinv rfl rfl rfl rfl
            (by simp) ⟨hexne, hpayne⟩
          have hres := ih
            (PState.mk st.stocks st.covered_calls
              (insertD st.dividends did { d with status := "ineligible" })
              st.cash_balance)
            (notes ++ [Note.ineligibleAfterExDate d.ticker])
            hc1 hndrest hparserest hc2 hstocks hc3
          exact ⟨hres.1, hres.2.trans hc4⟩
    · rw [processDividend_notdue now st notes did d ex pay hex hpay hdue]
      apply ih st notes (fun p hp => hlk p (List.mem_cons_of_mem _ hp)) hndrest
        hparserest ?_ hstocks hndk
      intro p hp
      rcases hinv p hp with h2 | h2
      · rcases List.mem_cons.mp h2 with he | hr
        · refine Or.inr ⟨⟨?_, ?_⟩, ?_⟩
          · rw [he]
            exact hexne
          · rw [he]
            exact hpayne
          · intro hpend pay2 hpay2
            rw [he] at hpend hpay2
            rw [hpay] at hpay2
            injection hpay2 with hpay2
            subst hpay2
            have hnotdue : ¬ now / 1440 ≥ pay := fun hd => hdue ⟨hd, hpend⟩
            omega
        · exact Or.inl hr
      · exact Or.inr h2

theorem payments_fold_quiet_noop (now : Nat) :
    ∀ (L : List (Nat × Dividend)) (st : PState) (notes : List Note),
      (∀ p ∈ L, divQuiet now p.2) →
      L.foldl (processDividend now) (st, notes) = (st, notes) := by
  intro L
  induction L with
  | nil =>
    intro st notes _
    rfl
  | cons x rest ih =>
    intro st notes hq
    obtain ⟨did, d⟩ := x
    obtain ⟨⟨hexne, hpayne⟩, hpend⟩ := hq (did, d) (List.mem_cons_self _ _)
    rcases hex : d.ex_div_date with _ | ex
    · exact absurd hex hexne
    rcases hpay : d.payment_date with _ | pay
    · exact absurd hpay hpayne
    simp only [List.foldl_cons]
    rw [processDividend_notdue now st notes did d ex pay hex hpay ?_]
    · exact ih st notes (fun p hp => hq p (List.mem_cons_of_mem _ hp))
    · intro ⟨hdue, hst⟩
      have := hpend hst pay hpay
      omega

theorem check_dividend_payments_quiet_noop (now : Nat) (s : PState)
    (h : ∀ p ∈ s.dividends, divQuiet now p.2) :
    check_dividend_payments now s = (s, []) :=
  payments_fold_quiet_noop now s.dividends s [] h

theorem check_dividend_payments_spec (now : Nat) (s : PState)
    (hparse : ParsableDivs s.dividends) (hcontig : ContigKeys s.dividends)
    (hstocks : ParsableStocks s.stocks) :
    (∀ p ∈ (check_dividend_payments now s).1.dividends, divQuiet now p.2) ∧
    coreOf (check_dividend_payments now s).1.dividends = coreOf s.dividends := by
  have hndk := contig_nodup s.dividends hcontig
  exact payments_fold_spec now s.dividends s []
    (fun p hp => lookupD_of_mem_nodup _ hndk p.1 p.2 hp)
    hndk hparse (fun p hp => Or.inl hp) hstocks hndk

/-! The upcoming-dividend discovery: it leaves every tracked upcoming
dividend tracked, inserts only fresh entries, and a second run is a no-op. -/

theorem upcoming_fold_spec (mkt : Market) (now : Nat) :
    ∀ (ts : List String) (st : PState) (notes : List Note),
      ParsableDivs st.dividends → ContigKeys st.dividends →
      ParsableDivs (ts.foldl (processUpcoming mkt now) (st, notes)).1.dividends ∧
      ContigKeys (ts.foldl (processUpcoming mkt now) (st, notes)).1.dividends ∧
      (∀ p ∈ st.dividends,
        p ∈ (ts.foldl (processUpcoming mkt now) (st, notes)).1.dividends) ∧
      (∀ t ∈ ts, ∀ e rate, mkt.exDivDate t = some e → mkt.divRate t = some rate →
        rate ≠ 0 → e ≥ now / 1440 →
        upcomingTracked (ts.foldl (processUpcoming mkt now) (st, notes)).1.dividends t e) := by
  intro ts
  induction ts with
  | nil =>
    intro st notes hp hc
    refine ⟨hp, hc, fun p hp2 => hp2, ?_⟩
    intro t ht
    cases ht
  | cons t rest ih =>
    intro st notes hp hc
    simp only [List.foldl_cons]
    rcases hx : mkt.exDivDate t with _ | e
    · have hnext := ih st notes hp hc
      simp only [processUpcoming, hx]
      refine ⟨hnext.1, hnext.2.1, hnext.2.2.1, ?_⟩
      intro t2 ht2 e2 rate2 hx2 hr2 h02 hge2
      rcases List.mem_cons.mp ht2 with he2 | hrest2
      · rw [he2] at hx2
        rw [hx2] at hx
        cases hx
      · exact hnext.2.2.2 t2 hrest2 e2 rate2 hx2 hr2 h02 hge2
    · rcases hr : mkt.divRate t with _ | rate
      · have hnext := ih st notes hp hc
        simp only [processUpcoming, hx, hr]
        refine ⟨hnext.1, hnext.2.1, hnext.2.2.1, ?_⟩
        intro t2 ht2 e2 rate2 hx2 hr2 h02 hge2
        rcases List.mem_cons.mp ht2 with he2 | hrest2
        · rw [he2] at hr2
          rw [hr2] at hr
          cases hr
        · exact hnext.2.2.2 t2 hrest2 e2 rate2 hx2 hr2 h02 hge2
      · by_cases h0 : rate = 0
        · have hnext := ih st notes hp hc
          simp only [processUpcoming, hx, hr, if_pos h0]
          refine ⟨hnext.1, hnext.2.1, hnext.2.2.1, ?_⟩
          intro t2 ht2 e2 rate2 hx2 hr2 h02 hge2
          rcases List.mem_cons.mp ht2 with he2 | hrest2
          · rw [he2] at hr2
            rw [hr2] at hr
            injection hr with hr
            rw [hr] at h02
            exact absurd h0 h02
          · exact hnext.2.2.2 t2 hrest2 e2 rate2 hx2 hr2 h02 hge2
        · by_cases htr : ¬ upcomingTracked st.dividends t e ∧ e ≥ now / 1440
          · simp only [processUpcoming, hx, hr, if_neg h0, if_pos htr]
            have hp2 : ParsableDivs (insertD st.dividends st.dividends.length
                ⟨t, some e, some (e + 21), rate / 4, "pending"⟩) :=
              parsableDivs_insertD _ _ _ hp ⟨by simp, by simp⟩
            have hc2 : ContigKeys (insertD st.dividends st.dividends.length
                ⟨t, some e, some (e + 21), rate / 4, "pending"⟩) :=
              contig_insert _ _ hc
            have hnext := ih
              (PState.mk st.stocks st.covered_calls
                (insertD st.dividends st.dividends.length
                  ⟨t, some e, some (e + 21), rate / 4, "pending"⟩)
                st.cash_balance)
              (notes ++ [Note.newDividendFound t (rate / 4) e]) hp2 hc2
            have hmemnew : ((st.dividends.length : Nat),
                (⟨t, some e, some (e + 21), rate / 4, "pending"⟩ : Dividend))
                ∈ insertD st.dividends st.dividends.length
                  ⟨t, some e, some (e + 21), rate / 4, "pending"⟩ := by
              rw [insertD_eq_append _ _ _ (contig_len_not_mem _ hc)]
              exact List.mem_append_right _ (List.mem_singleton.mpr rfl)
            refine ⟨hnext.1, hnext.2.1, ?_, ?_⟩
            · intro p hpm
              exact hnext.2.2.1 p (contig_insert_mem _ _ hc p hpm)
            · intro t2 ht2 e2 rate2 hx2 hr2 h02 hge2
              rcases List.mem_cons.mp ht2 with he2 | hrest2
              · subst he2
                rw [hx2] at hx
                injection hx with hx
                subst hx
                apply upcomingTracked_mono _ _ _ _ hnext.2.2.1
                exact ⟨_, hmemnew, rfl, rfl⟩
              · exact hnext.2.2.2 t2 hrest2 e2 rate2 hx2 hr2 h02 hge2
          · simp only [processUpcoming, hx, hr, if_neg h0, if_neg htr]
            have hnext := ih st notes hp hc
            refine ⟨hnext.1, hnext.2.1, hnext.2.2.1, ?_⟩
            intro t2 ht2 e2 rate2 hx2 hr2 h02 hge2
            rcases List.mem_cons.mp ht2 with he2 | hrest2
            · subst he2
              rw [hx2] at hx
              injection hx with hx
              subst hx
              have htracked : upcomingTracked st.dividends t2 e2 := by
                by_contra hno
                exact htr ⟨hno, hge2⟩
              exact upcomingTracked_mono _ _ _ _ hnext.2.2.1 htracked
            · exact hnext.2.2.2 t2 hrest2 e2 rate2 hx2 hr2 h02 hge2

theorem upcoming_fold_noop (mkt : Market) (now : Nat) :
    ∀ (ts : List String) (st : PState) (notes : List Note),
      (∀ t ∈ ts, ∀ e rate, mkt.exDivDate t = some e → mkt.divRate t = some rate →
        rate ≠ 0 → e ≥ now / 1440 → upcomingTracked st.dividends t e) →
      ts.foldl (processUpcoming mkt now) (st, notes) = (st, notes) := by
  intro ts
  induction ts with
  | nil =>
    intro st notes _
    rfl
  | cons t rest ih =>
    intro st notes h
    simp only [List.foldl_cons]
    have hrest : ∀ t2 ∈ rest, ∀ e rate, mkt.exDivDate t2 = some e →
        mkt.divRate t2 = some rate → rate ≠ 0 → e ≥ now / 1440 →
        upcomingTracked st.dividends t2 e :=
      fun t2 ht2 => h t2 (List.mem_cons_of_mem _ ht2)
    rcases hx : mkt.exDivDate t with _ | e
    · simp only [processUpcoming, hx]
      exact ih st notes hrest
    · rcases hr : mkt.divRate t with _ | rate
      · simp only [processUpcoming, hx, hr]
        exact ih st notes hrest
      · by_cases h0 : rate = 0
        · simp only [processUpcoming, hx, hr, if_pos h0]
          exact ih st notes hrest
        · have hcond : ¬(¬ upcomingTracked st.dividends t e ∧ e ≥ now / 1440) := by
            intro ⟨hno, hge⟩
            exact hno (h t (List.mem_cons_self _ _) e rate hx hr h0 hge)
          simp only [processUpcoming, hx, hr, if_neg h0, if_neg hcond]
          exact ih st notes hrest

theorem fetch_upcoming_dividends_spec (mkt : Market) (now : Nat) (s : PState)
    (hp : ParsableDivs s.dividends) (hc : ContigKeys s.dividends) :
    ParsableDivs (fetch_upcoming_dividends mkt now s).1.dividends ∧
    ContigKeys (fetch_upcoming_dividends mkt now s).1.dividends ∧
    (∀ p ∈ s.dividends, p ∈ (fetch_upcoming_dividends mkt now s).1.dividends) ∧
    (∀ t ∈ s.stocks.map Prod.fst, ∀ e rate, mkt.exDivDate t = some e →
      mkt.divRate t = some rate → rate ≠ 0 → e ≥ now / 1440 →
      upcomingTracked (fetch_upcoming_dividends mkt now s).1.dividends t e) :=
  upcoming_fold_spec mkt now (s.stocks.map Prod.fst) s [] hp hc

theorem fetch_upcoming_dividends_noop (mkt : Market) (now : Nat) (s : PState)
    (h : ∀ t ∈ s.stocks.map Prod.fst, ∀ e rate, mkt.exDivDate t = some e →
      mkt.divRate t = some rate → rate ≠ 0 → e ≥ now / 1440 →
      upcomingTracked s.dividends t e) :
    fetch_upcoming_dividends mkt now s = (s, []) :=
  upcoming_fold_noop mkt now (s.stocks.map Prod.fst) s [] h

/-! The historical backfill: after one run every qualifying payment is
tracked, and a second run is a no-op. -/

theorem natAbs_marker_le (d : Nat) : (((d - 3 : Nat) : Int) - (d : Int)).natAbs ≤ 5 := by
  omega

theorem processHistPayments_spec (now : Nat) (t : String) :
    ∀ (L : List (Nat × ℚ)) (st : PState) (notes : List Note),
      ParsableDivs st.dividends → ContigKeys st.dividends →
      ParsableStocks st.stocks →
      ParsableDivs (processHistPayments now t L (st, notes)).1.dividends ∧
      ContigKeys (processHistPayments now t L (st, notes)).1.dividends ∧
      (∀ p ∈ st.dividends, p ∈ (processHistPayments now t L (st, notes)).1.dividends) ∧
      (∀ q ∈ L, ∀ pos pd, lookupD st.stocks t = some pos →
        pos.purchase_date = some pd → pd < q.1 → q.1 ≤ now / 1440 →
        HistTracked (processHistPayments now t L (st, notes)).1.dividends t q.1) := by
  intro L
  induction L with
  | nil =>
    intro st notes hp hc _
    refine ⟨hp, hc, fun p hp2 => hp2, ?_⟩
    intro q hq
    cases hq
  | cons x rest ih =>
    intro st notes hp hc hstocks
    obtain ⟨d, amt⟩ := x
    rcases hl : lookupD st.stocks t with _ | pos
    · simp only [processHistPayments, hl]
      refine ⟨hp, hc, fun p hp2 => hp2, ?_⟩
      intro q hq pos2 pd2 hl2 _ _ _
      simp at hl2
    · rcases hpd : pos.purchase_date with _ | pd
      · exact absurd hpd (hstocks (t, pos) (lookupD_mem _ _ _ hl))
      · by_cases hq : pd < d ∧ d ≤ now / 1440
        · rcases hscan : histScan st.dividends t d with _ | _ | _
          · -- tracked: recurse on the unchanged state
            simp only [processHistPayments, hl, hpd, if_pos hq, hscan]
            have hnext := ih st notes hp hc hstocks
            refine ⟨hnext.1, hnext.2.1, hnext.2.2.1, ?_⟩
            intro q hq2 pos2 pd2 hl2 hpd2 hlt2 hle2
            rcases List.mem_cons.mp hq2 with he | hr
            · subst he
              apply histTracked_mono _ _ _ _ hnext.2.2.1
              exact (histScan_tracked_iff _ _ _ hp).mp hscan
            · injection hl2 with hl2e
              subst hl2e
              exact hnext.2.2.2 q hr pos pd2 hl hpd2 hlt2 hle2
          · -- untracked: insert the marker, then recurse
            simp only [processHistPayments, hl, hpd, if_pos hq, hscan]
            have hp2 : ParsableDivs (insertD st.dividends st.dividends.length
                ⟨t, some (d - 3), some d, amt, "paid"⟩) :=
              parsableDivs_insertD _ _ _ hp ⟨by simp, by simp⟩
            have hc2 : ContigKeys (insertD st.dividends st.dividends.length
                ⟨t, some (d - 3), some d, amt, "paid"⟩) :=
              contig_insert _ _ hc
            have hnext := ih
              (PState.mk st.stocks st.covered_calls
                (insertD st.dividends st.dividends.length
                  ⟨t, some (d - 3), some d, amt, "paid"⟩)
                (st.cash_balance + pos.shares * amt))
              (notes ++ [Note.historicalCredited t (pos.shares * amt)]) hp2 hc2 hstocks
            have hmemnew : ((st.dividends.length : Nat),
                (⟨t, some (d - 3), some d, amt, "paid"⟩ : Dividend))
                ∈ insertD st.dividends st.dividends.length
                  ⟨t, some (d - 3), some d, amt, "paid"⟩ := by
              rw [insertD_eq_append _ _ _ (contig_len_not_mem _ hc)]
              exact List.mem_append_right _ (List.mem_singleton.mpr rfl)
            have hpres : ∀ p ∈ st.dividends,
                p ∈ (processHistPayments now t rest
                  (PState.mk st.stocks st.covered_calls
                    (insertD st.dividends st.dividends.length
                      ⟨t, some (d - 3), some d, amt, "paid"⟩)
                    (st.cash_balance + pos.shares * amt),
                   notes ++ [Note.historicalCredited t (pos.shares * amt)])).1.dividends := by
              intro p hpm
              exact hnext.2.2.1 p (contig_insert_mem _ _ hc p hpm)
            refine ⟨hnext.1, hnext.2.1, hpres, ?_⟩
            intro q hq2 pos2 pd2 hl2 hpd2 hlt2 hle2
            rcases List.mem_cons.mp hq2 with he | hr
            · subst he
              apply histTracked_mono _ _ _ _ hnext.2.2.1
              exact ⟨_, hmemnew, rfl, d - 3, rfl, natAbs_marker_le d⟩
            · injection hl2 with hl2e
              subst hl2e
              exact hnext.2.2.2 q hr pos pd2 hl hpd2 hlt2 hle2
          · -- parse failure is impossible on parsable dividends
            exact absurd hscan (histScan_ne_parseFail _ _ _ hp)
        · simp only [processHistPayments, hl, hpd, if_neg hq]
          have hnext := ih st notes hp hc hstocks
          refine ⟨hnext.1, hnext.2.1, hnext.2.2.1, ?_⟩
          intro q hq2 pos2 pd2 hl2 hpd2 hlt2 hle2
          rcases List.mem_cons.mp hq2 with he | hr
          · subst he
            injection hl2 with hl2e
            subst hl2e
            rw [hpd] at hpd2
            injection hpd2 with hpd2e
            subst hpd2e
            exact absurd ⟨hlt2, hle2⟩ hq
          · injection hl2 with hl2e
            subst hl2e
            exact hnext.2.2.2 q hr pos pd2 hl hpd2 hlt2 hle2

theorem processHistPayments_noop (now : Nat) (t : String) :
    ∀ (L : List (Nat × ℚ)) (st : PState) (notes : List Note),
      ParsableDivs st.dividends →
      (∀ q ∈ L, ∀ pos pd, lookupD st.stocks t = some pos →
        pos.purchase_date = some pd → pd < q.1 → q.1 ≤ now / 1440 →
        HistTracked st.dividends t q.1) →
      processHistPayments now t L (st, notes) = (st, notes) := by
  intro L
  induction L with
  | nil =>
    intro st notes _ _
    rfl
  | cons x rest ih =>
    intro st notes hp htr
    obtain ⟨d, amt⟩ := x
    rcases hl : lookupD st.stocks t with _ | pos
    · simp only [processHistPayments, hl]
    · rcases hpd : pos.purchase_date with _ | pd
      · simp only [processHistPayments, hl, hpd]
      · by_cases hq : pd < d ∧ d ≤ now / 1440
        · have htracked : HistTracked st.dividends t d :=
            htr (d, amt) (List.mem_cons_self _ _) pos pd hl hpd hq.1 hq.2
          have hscan : histScan st.dividends t d = .tracked :=
            (histScan_tracked_iff _ _ _ hp).mpr htracked
          simp only [processHistPayments, hl, hpd, if_pos hq, hscan]
          exact ih st notes hp (fun q hq2 => htr q (List.mem_cons_of_mem _ hq2))
        · simp only [processHistPayments, hl, hpd, if_neg hq]
          exact ih st notes hp (fun q hq2 => htr q (List.mem_cons_of_mem _ hq2))

theorem hist_fold_spec (mkt : Market) (now : Nat) :
    ∀ (ts : List String) (st : PState) (notes : List Note),
      ParsableDivs st.dividends → ContigKeys st.dividends →
      ParsableStocks st.stocks →
      ParsableDivs ((ts.foldl (fun acc2 t => processHistPayments now t
        ((mkt.history t).filter (fun p => now / 1440 - 180 ≤ p.1)) acc2)
        (st, notes))).1.dividends ∧
      ContigKeys ((ts.foldl (fun acc2 t => processHistPayments now t
        ((mkt.history t).filter (fun p => now / 1440 - 180 ≤ p.1)) acc2)
        (st, notes))).1.dividends ∧
      (∀ p ∈ st.dividends, p ∈ ((ts.foldl (fun acc2 t => processHistPayments now t
        ((mkt.history t).filter (fun p => now / 1440 - 180 ≤ p.1)) acc2)
        (st, notes))).1.dividends) ∧
      (∀ t ∈ ts, ∀ q ∈ (mkt.history t).filter (fun p => now / 1440 - 180 ≤ p.1),
        ∀ pos pd, lookupD st.stocks t = some pos → pos.purchase_date = some pd →
        pd < q.1 → q.1 ≤ now / 1440 →
        HistTracked ((ts.foldl (fun acc2 t => processHistPayments now t
          ((mkt.history t).filter (fun p => now / 1440 - 180 ≤ p.1)) acc2)
          (st, notes))).1.dividends t q.1) := by
  intro ts
  induction ts with
  | nil =>
    intro st notes hp hc _
    refine ⟨hp, hc, fun p hp2 => hp2, ?_⟩
    intro t ht
    cases ht
  | cons t rest ih =>
    intro st notes hp hc hstocks
    simp only [List.foldl_cons]
    have hstep := processHistPayments_spec now t
      ((mkt.history t).filter (fun p => now / 1440 - 180 ≤ p.1)) st notes hp hc hstocks
    have hframe := processHistPayments_frame now t
      ((mkt.history t).filter (fun p => now / 1440 - 180 ≤ p.1)) (st, notes)
    have hstocks2 : ParsableStocks (processHistPayments now t
        ((mkt.history t).filter (fun p => now / 1440 - 180 ≤ p.1)) (st, notes)).1.stocks := by
      rw [hframe.1]
      exact hstocks
    have hnext := ih
      (processHistPayments now t
        ((mkt.history t).filter (fun p => now / 1440 - 180 ≤ p.1)) (st, notes)).1
      (processHistPayments now t
        ((mkt.history t).filter (fun p => now / 1440 - 180 ≤ p.1)) (st, notes)).2
      hstep.1 hstep.2.1 hstocks2
    refine ⟨hnext.1, hnext.2.1, ?_, ?_⟩
    · intro p hpm
      exact hnext.2.2.1 p (hstep.2.2.1 p hpm)
    · intro t2 ht2 q hq2 pos pd hl2 hpd2 hlt2 hle2
      rcases List.mem_cons.mp ht2 with he | hr
      · subst he
        apply histTracked_mono _ _ _ _ hnext.2.2.1
        exact hstep.2.2.2 q hq2 pos pd hl2 hpd2 hlt2 hle2
      · have hl3 : lookupD (processHistPayments now t
            ((mkt.history t).filter (fun p => now / 1440 - 180 ≤ p.1)) (st, notes)).1.stocks t2
            = some pos := by
          rw [hframe.1]
          exact hl2
        exact hnext.2.2.2 t2 hr q hq2 pos pd hl3 hpd2 hlt2 hle2

/-! Remaining wrappers and the idempotence theorem. -/

theorem check_expired_options_parsable_stocks (mkt : Market) (now : Nat) (s : PState)
    (h : ParsableStocks s.stocks) :
    ParsableStocks (check_expired_options mkt now s).1.stocks :=
  foldl_processCall_parsable_stocks mkt now s.covered_calls (s, []) h

theorem hist_fold_noop (mkt : Market) (now : Nat) :
    ∀ (ts : List String) (st : PState) (notes : List Note),
      ParsableDivs st.dividends →
      (∀ t ∈ ts, ∀ q ∈ (mkt.history t).filter (fun p => now / 1440 - 180 ≤ p.1),
        ∀ pos pd, lookupD st.stocks t = some pos → pos.purchase_date = some pd →
        pd < q.1 → q.1 ≤ now / 1440 → HistTracked st.dividends t q.1) →
      ts.foldl (fun acc2 t => processHistPayments now t
        ((mkt.history t).filter (fun p => now / 1440 - 180 ≤ p.1)) acc2) (st, notes)
        = (st, notes) := by
  intro ts
  induction ts with
  | nil =>
    intro st notes _ _
    rfl
  | cons t rest ih =>
    intro st notes hp htr
    simp only [List.foldl_cons]
    rw [processHistPayments_noop now t
      ((mkt.history t).filter (fun p => now / 1440 - 180 ≤ p.1)) st notes hp
      (htr t (List.mem_cons_self _ _))]
    exact ih st notes hp (fun t2 ht2 => htr t2 (List.mem_cons_of_mem _ ht2))

theorem check_historical_dividends_spec (mkt : Market) (now : Nat) (s : PState)
    (hp : ParsableDivs s.dividends) (hc : ContigKeys s.dividends)
    (hstocks : ParsableStocks s.stocks) :
    ParsableDivs (check_historical_dividends mkt now s).1.dividends ∧
    ContigKeys (check_historical_dividends mkt now s).1.dividends ∧
    (∀ p ∈ s.dividends, p ∈ (check_historical_dividends mkt now s).1.dividends) ∧
    (∀ t ∈ s.stocks.map Prod.fst,
      ∀ q ∈ (mkt.history t).filter (fun p => now / 1440 - 180 ≤ p.1),
      ∀ pos pd, lookupD s.stocks t = some pos → pos.purchase_date = some pd →
      pd < q.1 → q.1 ≤ now / 1440 →
      HistTracked (check_historical_dividends mkt now s).1.dividends t q.1) :=
  hist_fold_spec mkt now (s.stocks.map Prod.fst) s [] hp hc hstocks

theorem check_historical_dividends_noop (mkt : Market) (now : Nat) (s : PState)
    (hp : ParsableDivs s.dividends)
    (htr : ∀ t ∈ s.stocks.map Prod.fst,
      ∀ q ∈ (mkt.history t).filter (fun p => now / 1440 - 180 ≤ p.1),
      ∀ pos pd, lookupD s.stocks t = some pos → pos.purchase_date = some pd →
      pd < q.1 → q.1 ≤ now / 1440 → HistTracked s.dividends t q.1) :
    check_historical_dividends mkt now s = (s, []) :=
  hist_fold_noop mkt now (s.stocks.map Prod.fst) s [] hp htr

theorem startup_sweep_noop_parts (mkt : Market) (now : Nat) (st : PState)
    (h1 : check_expired_options mkt now st = (st, []))
    (h2 : check_historical_dividends mkt now st = (st, []))
    (h3 : fetch_upcoming_dividends mkt now st = (st, []))
    (h4 : check_dividend_payments now st = (st, [])) :
    startup_sweep mkt now st = (st, []) := by
  simp only [startup_sweep, h1, h2, h3, h4, List.append_nil, List.nil_append]

/-- C8 amended: running the reconciliation sweep twice with the same clock
and provider produces an empty combined notice list on the second run,
provided the starting state has contiguous dividend ids (the generated
`div_<count>` ids stay fresh), dividends with parsable dates (no tracked
marker can be deleted by the payment sweep), and positions with parsable
purchase dates.  The counterexample shows the claim fails without the first
proviso; dropping either parsability proviso also breaks it, because the
payment sweep deletes unparsable entries that serve as dedup markers. -/
theorem C8_sweep_idempotent_amended (mkt : Market) (now : Nat) (s : PState)
    (hkeys : DivKeysContiguous s) (hdiv : DivDatesParsable s)
    (hstock : StockDatesParsable s) :
    (startup_sweep mkt now (startup_sweep mkt now s).1).2 = [] := by
  have hAq := check_expired_options_establishes_quiet mkt now s
  have hAdiv := check_expired_options_dividends mkt now s
  have hAstocks : ParsableStocks (check_expired_options mkt now s).1.stocks :=
    check_expired_options_parsable_stocks mkt now s hstock
  have hApd : ParsableDivs (check_expired_options mkt now s).1.dividends := by
    rw [hAdiv]
    exact hdiv
  have hAck : ContigKeys (check_expired_options mkt now s).1.dividends := by
    rw [hAdiv]
    exact hkeys
  have hB := check_historical_dividends_spec mkt now (check_expired_options mkt now s).1 hApd hAck hAstocks
  have hBframe := check_historical_dividends_frame mkt now (check_expired_options mkt now s).1
  have hC := fetch_upcoming_dividends_spec mkt now (check_historical_dividends mkt now (check_expired_options mkt now s).1).1 hB.1 hB.2.1
  have hCframe := fetch_upcoming_dividends_frame mkt now (check_historical_dividends mkt now (check_expired_options mkt now s).1).1
  have hCstocks : ParsableStocks (fetch_upcoming_dividends mkt now (check_historical_dividends mkt now (check_expired_options mkt now s).1).1).1.stocks := by
    rw [hCframe.1, hBframe.1]
    exact hAstocks
  have hD := check_dividend_payments_spec now (fetch_upcoming_dividends mkt now (check_historical_dividends mkt now (check_expired_options mkt now s).1).1).1 hC.1 hC.2.1 hCstocks
  have hDframe := check_dividend_payments_frame now (fetch_upcoming_dividends mkt now (check_historical_dividends mkt now (check_expired_options mkt now s).1).1).1
  have hS1cc : (startup_sweep mkt now s).1.covered_calls = (check_expired_options mkt now s).1.covered_calls := by
    show (check_dividend_payments now (fetch_upcoming_dividends mkt now (check_historical_dividends mkt now (check_expired_options mkt now s).1).1).1).1.covered_calls = _
    rw [hDframe.2, hCframe.2, hBframe.2]
  have hS1stocksA : (startup_sweep mkt now s).1.stocks = (check_expired_options mkt now s).1.stocks := by
    show (check_dividend_payments now (fetch_upcoming_dividends mkt now (check_historical_dividends mkt now (check_expired_options mkt now s).1).1).1).1.stocks = _
    rw [hDframe.1, hCframe.1, hBframe.1]
  have hS1q : ∀ p ∈ (startup_sweep mkt now s).1.covered_calls, ccQuiet now p.2 := by
    rw [hS1cc]
    exact hAq
  have r2a : check_expired_options mkt now (startup_sweep mkt now s).1
      = ((startup_sweep mkt now s).1, []) :=
    check_expired_options_quiet_noop mkt now _ hS1q
  have hS1pd : ParsableDivs (startup_sweep mkt now s).1.dividends :=
    fun p hp => (hD.1 p hp).1
  have htrS1 : ∀ t ∈ (startup_sweep mkt now s).1.stocks.map Prod.fst,
      ∀ q ∈ (mkt.history t).filter (fun p => now / 1440 - 180 ≤ p.1),
      ∀ pos pd, lookupD (startup_sweep mkt now s).1.stocks t = some pos →
      pos.purchase_date = some pd → pd < q.1 → q.1 ≤ now / 1440 →
      HistTracked (startup_sweep mkt now s).1.dividends t q.1 := by
    intro t ht q hq pos pd hl hpd hlt hle
    rw [hS1stocksA] at ht hl
    have h1 := hB.2.2.2 t ht q hq pos pd hl hpd hlt hle
    have h2 := histTracked_mono _ _ _ _ hC.2.2.1 h1
    exact histTracked_of_coreOf_eq _ _ _ _ hD.2.symm h2
  have r2b : check_historical_dividends mkt now (startup_sweep mkt now s).1
      = ((startup_sweep mkt now s).1, []) :=
    check_historical_dividends_noop mkt now _ hS1pd htrS1
  have hupS1 : ∀ t ∈ (startup_sweep mkt now s).1.stocks.map Prod.fst,
      ∀ e rate, mkt.exDivDate t = some e → mkt.divRate t = some rate →
      rate ≠ 0 → e ≥ now / 1440 →
      upcomingTracked (startup_sweep mkt now s).1.dividends t e := by
    intro t ht e rate hx hr h0 hge
    have hS1stocksB : (startup_sweep mkt now s).1.stocks = (check_historical_dividends mkt now (check_expired_options mkt now s).1).1.stocks := by
      show (check_dividend_payments now (fetch_upcoming_dividends mkt now (check_historical_dividends mkt now (check_expired_options mkt now s).1).1).1).1.stocks = _
      rw [hDframe.1, hCframe.1]
    rw [hS1stocksB] at ht
    have h1 := hC.2.2.2 t ht e rate hx hr h0 hge
    exact upcomingTracked_of_coreOf_eq _ _ _ _ hD.2.symm h1
  have r2c : fetch_upcoming_dividends mkt now (startup_sweep mkt now s).1
      = ((startup_sweep mkt now s).1, []) :=
    fetch_upcoming_dividends_noop mkt now _ hupS1
  have r2d : check_dividend_payments now (startup_sweep mkt now s).1
      = ((startup_sweep mkt now s).1, []) :=
    check_dividend_payments_quiet_noop now _ hD.1
  have hfinal := startup_sweep_noop_parts mkt now (startup_sweep mkt now s).1
    r2a r2b r2c r2d
  rw [hfinal]

/-- Witness for the amended C8 at a concrete input: the empty ledger with a
trivial provider satisfies the three provisos and a second sweep reports
nothing. -/
theorem C8_sweep_idempotent_amended_witness :
    (DivKeysContiguous ⟨[], [], [], 0⟩ ∧ DivDatesParsable ⟨[], [], [], 0⟩ ∧
      StockDatesParsable ⟨[], [], [], 0⟩) ∧
    (startup_sweep ⟨fun _ => 0, fun _ => none, fun _ => none, fun _ => []⟩ 0
      ((startup_sweep ⟨fun _ => 0, fun _ => none, fun _ => none, fun _ => []⟩ 0
        ⟨[], [], [], 0⟩).1)).2 = [] := by
  have h1 : DivKeysContiguous ⟨[], [], [], 0⟩ := by
    unfold DivKeysContiguous
    rfl
  have h2 : DivDatesParsable ⟨[], [], [], 0⟩ := by
    intro p hp
    cases hp
  have h3 : StockDatesParsable ⟨[], [], [], 0⟩ := by
    intro p hp
    cases hp
  exact ⟨⟨h1, h2, h3⟩, C8_sweep_idempotent_amended
    ⟨fun _ => 0, fun _ => none, fun _ => none, fun _ => []⟩ 0 ⟨[], [], [], 0⟩ h1 h2 h3⟩

end PortfolioVisuals
